import Mathlib

/-!
Verification development for the Task-Manager backend core: the task
hierarchy (cycle prevention, cascade delete, status roll-up), the
project access guard, and the task filters.

The JavaScript/Mongoose source is embedded shallowly:
- a Mongo collection is a `List` of records; `findById` / `findOne`
  become `List.find?`;
- `findByIdAndUpdate` / `findByIdAndDelete` are query operations: they
  replace or remove the matching document and, per Mongoose semantics,
  do NOT run document middleware (the save/remove hooks);
- `Document.save` and `Model.create` persist the document and then run
  the registered save hooks;
- the unbounded `while` walks over parent pointers are modelled with an
  explicit fuel argument; lemmas show the fuel used by the embedding is
  sufficient under the store invariants;
- timestamps (`Date`) are modelled as natural numbers (epoch
  milliseconds); ISO date strings keep their string representation where
  the source compares strings.
-/

namespace TaskApp

/-- Task status, from the schema enum: To Do / In Progress / Done. -/
inductive Status where
  | toDo
  | inProgress
  | done
deriving DecidableEq, Repr

/-- Task priority, from the schema enum: Low / Medium / High / Critical. -/
inductive Priority where
  | low
  | medium
  | high
  | critical
deriving DecidableEq, Repr

/-- Project role, from the `sharedWith.role` enum: Owner / Editor / Viewer. -/
inductive Role where
  | viewer
  | editor
  | owner
deriving DecidableEq, Repr

/-- The `roleHierarchy` table of `checkProjectAccess`. -/
def roleHierarchy : Role → Nat
  | .owner => 3
  | .editor => 2
  | .viewer => 1

/-- A task document (`taskSchema`); fields not touched by the verified
operations (attachments, comments, hour estimates) are omitted. -/
structure Task where
  id : Nat
  name : String
  description : String
  status : Status
  priority : Priority
  dueDate : Option Nat
  project : Nat
  parentTask : Option Nat
  order : Int
  tags : List String
  assignee : Option Nat
deriving DecidableEq, Repr

/-- The task collection. -/
abbrev Store := List Task

/-- `Task.findById(id)`. -/
def findTask (s : Store) (id : Nat) : Option Task :=
  s.find? (fun t => t.id == id)

/-- `Task.findOne({ _id: id, project: pid })`. -/
def findTaskInProject (s : Store) (id pid : Nat) : Option Task :=
  s.find? (fun t => t.id == id && t.project == pid)

/-- `Task.find({ parentTask: pid })`. -/
def childrenOf (s : Store) (pid : Nat) : List Task :=
  s.filter (fun t => t.parentTask == some pid)

/-- The parent pointer of the task with the given id, if any. -/
def parentOf (s : Store) (id : Nat) : Option Nat :=
  (findTask s id).bind (fun t => t.parentTask)

/-- Replace the document with `t.id` by `t` (the write performed by
`findByIdAndUpdate` / `save` on an existing document). -/
def setTask (s : Store) (t : Task) : Store :=
  s.map (fun u => if u.id == t.id then t else u)

/-- `Task.findByIdAndDelete(id)`. -/
def removeTask (s : Store) (id : Nat) : Store :=
  s.filter (fun t => t.id != id)

/-- The n-th ancestor of `id` under a parent-pointer map `f`. -/
def iterParent (f : Nat → Option Nat) : Nat → Nat → Option Nat
  | 0, id => some id
  | n + 1, id =>
      match f id with
      | none => none
      | some p => iterParent f n p

/-- `x`'s parent chain reaches `root` (descendant-or-self, at id level:
following `parentTask` pointers from `x` arrives at `root`). -/
def ReachesUp (s : Store) (x root : Nat) : Prop :=
  ∃ n, iterParent (parentOf s) n x = some root

/-- Bounded executable form of `ReachesUp`. -/
def upChainHits (s : Store) : Nat → Nat → Nat → Bool
  | 0, x, t => x == t
  | fuel + 1, x, t =>
      x == t ||
        match parentOf s x with
        | none => false
        | some p => upChainHits s fuel p t

/-- No id is its own strict ancestor. -/
def Acyclic (f : Nat → Option Nat) : Prop :=
  ∀ id n, iterParent f (n + 1) id ≠ some id

/-- Ids are unique in the store (Mongo `_id` uniqueness). -/
def NodupIds (s : Store) : Prop :=
  (s.map Task.id).Nodup

/-- A single task's parent pointer, when set, resolves to a task of the
same project that is present in the store. -/
def ParentInStore (s : Store) (t : Task) : Prop :=
  match t.parentTask with
  | none => True
  | some p => ∃ u ∈ s, u.id = p ∧ u.project = t.project

/-- Every parent pointer in the store resolves within the store, to the
same project. -/
def ParentsClosed (s : Store) : Prop :=
  ∀ t ∈ s, ParentInStore s t

/-- The store invariant maintained by the task routes. -/
def WF (s : Store) : Prop :=
  NodupIds s ∧ ParentsClosed s ∧ Acyclic (parentOf s)

/-- Errors surfaced by the task routes (`res.status(400/404/500)`). -/
inductive TaskError where
  | badRequest (msg : String)
  | notFound (msg : String)
  | serverError
deriving DecidableEq, Repr

/-- The `while (currentParent)` walk of the PATCH route: starting from
the candidate parent document, reject if some node of its ancestor chain
has `parentTask === taskId`. -/
def descendantWalk (s : Store) (taskId : Nat) : Nat → Option Task → Bool
  | _, none => false
  | 0, some _ => false
  | fuel + 1, some cur =>
      if cur.parentTask == some taskId then true
      else descendantWalk s taskId fuel (cur.parentTask.bind (fun p => findTask s p))

/-- The `while (currentParent)` walk of the pre-save hook: starting from
the parent document, reject if some node of the chain is the task itself. -/
def circularWalk (s : Store) (selfId : Nat) : Nat → Option Task → Bool
  | _, none => false
  | 0, some _ => false
  | fuel + 1, some cur =>
      if cur.id == selfId then true
      else circularWalk s selfId fuel (cur.parentTask.bind (fun p => findTask s p))

/-- The `taskSchema.pre('save')` hook body for a document whose
`parentTask` is modified: parent must exist in the same project, and the
parent's ancestor chain must not contain the document itself.  Returns
`true` when the hook throws. -/
def preSaveRejects (s : Store) (t : Task) : Bool :=
  match t.parentTask with
  | none => false
  | some pid =>
      match s.find? (fun u => u.id == pid && u.project == t.project) with
      | none => true
      | some parent => circularWalk s t.id (s.length + 1) (some parent)

/-- The status computed by the `taskSchema.post('save')` hook from the
parent's sub-tasks: Done when `completedSubTasks === totalSubTasks`,
In Progress when `completedSubTasks > 0`, else To Do. -/
def rollupStatus (subTasks : List Task) : Status :=
  let completedSubTasks := (subTasks.filter (fun u => u.status == .done)).length
  if completedSubTasks == subTasks.length then .done
  else if completedSubTasks > 0 then .inProgress
  else .toDo

/-- The `taskSchema.post('save')` hook: recompute the parent's status
from its sub-tasks and save the parent, which runs the hook again one
level up (fuel bounds the ancestor chain). -/
def postSaveHook (s : Store) (t : Task) : Nat → Store
  | 0 => s
  | fuel + 1 =>
      match t.parentTask with
      | none => s
      | some pid =>
          match findTask s pid with
          | none => s
          | some parent =>
              let subTasks := childrenOf s pid
              if subTasks.length > 0 then
                let parent' := { parent with status := rollupStatus subTasks }
                postSaveHook (setTask s parent') parent' fuel
              else s

/-- `document.save()` for an already-validated document: persist it,
then run the post-save hook. -/
def saveTask (s : Store) (t : Task) : Store :=
  let s1 := setTask s t
  postSaveHook s1 t (s1.length + 1)

/-- Request body of `POST /:projectId/tasks` (all fields the route
accepts besides the parent link). -/
structure CreateAttrs where
  name : String
  description : String := ""
  status : Status := .toDo
  priority : Priority := .medium
  dueDate : Option Nat := none
  order : Int := 0
  tags : List String := []
  assignee : Option Nat := none
deriving Repr

/-- The route-level parent check of `POST /:projectId/tasks`: when a
parent id is supplied it must resolve within the project. -/
def routeParentMissing (s : Store) (projectId : Nat) (parentTaskId : Option Nat) : Bool :=
  match parentTaskId with
  | none => false
  | some pid => (findTaskInProject s pid projectId).isNone

/-- The document built by `Task.create` from the request body. -/
def newTask (projectId newId : Nat) (attrs : CreateAttrs) (parentTaskId : Option Nat) : Task :=
  { id := newId, name := attrs.name, description := attrs.description,
    status := attrs.status, priority := attrs.priority,
    dueDate := attrs.dueDate, project := projectId,
    parentTask := parentTaskId, order := attrs.order,
    tags := attrs.tags, assignee := attrs.assignee }

/-- `POST /:projectId/tasks`: route-level parent check, then
`Task.create` (which runs the pre-save check, inserts the document and
runs the post-save roll-up).  `newId` is the fresh `_id` issued by the
store. -/
def createTask (s : Store) (projectId newId : Nat) (attrs : CreateAttrs)
    (parentTaskId : Option Nat) : Except TaskError Store :=
  if routeParentMissing s projectId parentTaskId then
    .error (.badRequest "Parent task not found or does not belong to this project")
  else
    let t := newTask projectId newId attrs parentTaskId
    if preSaveRejects s t then .error .serverError
    else .ok (postSaveHook (s ++ [t]) t ((s ++ [t]).length + 1))

/-- Request body of `PATCH /:projectId/tasks/:taskId`; `none` means the
key is absent from the request. -/
structure UpdatePatch where
  name : Option String := none
  description : Option String := none
  status : Option Status := none
  priority : Option Priority := none
  dueDate : Option Nat := none
  parentTaskId : Option Nat := none
  assigneeId : Option Nat := none
  order : Option Int := none
  tags : Option (List String) := none
deriving Repr

/-- The `$set` document built by the PATCH route: overwrite exactly the
provided fields. -/
def applyPatch (t : Task) (patch : UpdatePatch) : Task :=
  { t with
    name := patch.name.getD t.name,
    description := patch.description.getD t.description,
    status := patch.status.getD t.status,
    priority := patch.priority.getD t.priority,
    dueDate := match patch.dueDate with | none => t.dueDate | some d => some d,
    parentTask := match patch.parentTaskId with | none => t.parentTask | some p => some p,
    assignee := match patch.assigneeId with | none => t.assignee | some a => some a,
    order := patch.order.getD t.order,
    tags := patch.tags.getD t.tags }

/-- The parent-link validation of `PATCH /:projectId/tasks/:taskId`:
when a new parent is supplied and differs from the current one, it must
exist in the project, must not be the task itself, and must not be a
descendant of the task. -/
def updateParentCheck (s : Store) (projectId taskId : Nat) (task : Task)
    (parentTaskId : Option Nat) : Option TaskError :=
  match parentTaskId with
  | none => none
  | some p =>
      if some p == task.parentTask then none
      else
        match findTaskInProject s p projectId with
        | none =>
            some (.badRequest "Parent task not found or does not belong to this project")
        | some _ =>
            if p == taskId then
              some (.badRequest "Task cannot be its own parent")
            else if descendantWalk s taskId (s.length + 1) (findTask s p) then
              some (.badRequest "Cannot move task to its own descendant")
            else none

/-- `PATCH /:projectId/tasks/:taskId`: find the task in the project;
validate any reparent; then `findByIdAndUpdate` with `$set` (a query
update: no save hooks run, hence no status roll-up). -/
def updateTask (s : Store) (projectId taskId : Nat) (patch : UpdatePatch) :
    Except TaskError Store :=
  match findTaskInProject s taskId projectId with
  | none => .error (.notFound "Task not found")
  | some task =>
      match updateParentCheck s projectId taskId task patch.parentTaskId with
      | some e => .error e
      | none => .ok (setTask s (applyPatch task patch))

/-- The store after an update request: the handler writes nothing when
it returns an error response. -/
def updateTaskStore (s : Store) (projectId taskId : Nat) (patch : UpdatePatch) : Store :=
  match updateTask s projectId taskId patch with
  | .ok s' => s'
  | .error _ => s

/-- `deleteTaskAndSubtasks`: delete all sub-tasks recursively, then the
task itself (fuel bounds the recursion depth). -/
def deleteRec : Nat → Store → Nat → Store
  | 0, s, _ => s
  | fuel + 1, s, id =>
      match findTask s id with
      | none => s
      | some _ =>
          let subtasks := childrenOf s id
          let s' := subtasks.foldl (fun acc sub => deleteRec fuel acc sub.id) s
          removeTask s' id

/-- `DELETE /:projectId/tasks/:taskId`: 404 when the task is not in the
project, otherwise recursive cascade delete. -/
def deleteTask (s : Store) (projectId taskId : Nat) : Except TaskError Store :=
  match findTaskInProject s taskId projectId with
  | none => .error (.notFound "Task not found")
  | some _ => .ok (deleteRec (s.length + 1) s taskId)

/-- The store after a delete request: the handler writes nothing when it
returns an error response. -/
def deleteTaskStore (s : Store) (projectId taskId : Nat) : Store :=
  match deleteTask s projectId taskId with
  | .ok s' => s'
  | .error _ => s

/-- An entry of a project's `sharedWith` list. -/
structure Share where
  user : Nat
  role : Role
deriving DecidableEq, Repr

/-- A project document (`projectSchema`). -/
structure Project where
  id : Nat
  name : String
  description : String
  owner : Nat
  sharedWith : List Share
deriving DecidableEq, Repr

/-- Outcome of the `checkProjectAccess(requiredRole)` middleware. -/
inductive AccessResult where
  | ok (role : Role)
  | projectNotFound
  | accessDenied
  | insufficientPermissions
deriving DecidableEq, Repr

/-- The `checkProjectAccess` middleware: 404 when the project is
missing; the owner passes with role Owner unconditionally; otherwise
look the user up in `sharedWith` (403 when absent) and compare the
stored role's rank with the required role's rank. -/
def checkProjectAccess (projects : List Project) (projectId userId : Nat)
    (requiredRole : Role) : AccessResult :=
  match projects.find? (fun p => p.id == projectId) with
  | none => .projectNotFound
  | some project =>
      if project.owner == userId then .ok .owner
      else
        match project.sharedWith.find? (fun share => share.user == userId) with
        | none => .accessDenied
        | some share =>
            if roleHierarchy share.role < roleHierarchy requiredRole then
              .insufficientPermissions
            else .ok share.role

/-- Outcome of `DELETE /:projectId` (project deletion). -/
inductive DeleteProjectResult where
  | ok (projects : List Project) (tasks : Store)
  | projectNotFound
  | accessDenied
  | insufficientPermissions
deriving DecidableEq, Repr

/-- `DELETE /:projectId`: Owner-gated, then `Project.findByIdAndDelete`.
The task collection is passed through untouched: the route deletes no
tasks and the project model registers no remove middleware. -/
def deleteProject (projects : List Project) (tasks : Store)
    (projectId userId : Nat) : DeleteProjectResult :=
  match checkProjectAccess projects projectId userId .owner with
  | .ok _ =>
      match projects.find? (fun p => p.id == projectId) with
      | none => .projectNotFound
      | some _ => .ok (projects.filter (fun p => p.id != projectId)) tasks
  | .projectNotFound => .projectNotFound
  | .accessDenied => .accessDenied
  | .insufficientPermissions => .insufficientPermissions

/-- Outcome of `POST /:projectId/share`. -/
inductive ShareResult where
  | ok (projects : List Project)
  | userNotFound
  | cannotShareWithSelf
  | projectNotFound
  | accessDenied
  | insufficientPermissions
deriving DecidableEq, Repr

/-- `POST /:projectId/share`: Owner-gated; target user must exist and
differ from the caller; upsert the `(user, role)` entry in `sharedWith`. -/
def shareProject (projects : List Project) (users : List Nat)
    (projectId callerId targetUserId : Nat) (role : Role) : ShareResult :=
  match checkProjectAccess projects projectId callerId .owner with
  | .projectNotFound => .projectNotFound
  | .accessDenied => .accessDenied
  | .insufficientPermissions => .insufficientPermissions
  | .ok _ =>
      if !(users.contains targetUserId) then .userNotFound
      else if targetUserId == callerId then .cannotShareWithSelf
      else
        match projects.find? (fun p => p.id == projectId) with
        | none => .projectNotFound
        | some project =>
            let newShared :=
              if project.sharedWith.any (fun share => share.user == targetUserId) then
                project.sharedWith.map (fun share =>
                  if share.user == targetUserId then { share with role := role } else share)
              else project.sharedWith ++ [{ user := targetUserId, role := role }]
            let project' := { project with sharedWith := newShared }
            .ok (projects.map (fun p => if p.id == projectId then project' else p))

/-- Outcome of `DELETE /:projectId/share/:userId`. -/
inductive UnshareResult where
  | ok (projects : List Project)
  | projectNotFound
  | accessDenied
  | insufficientPermissions
deriving DecidableEq, Repr

/-- `DELETE /:projectId/share/:userId`: Owner-gated; filter the target
user out of `sharedWith`. -/
def unshareProject (projects : List Project) (projectId callerId targetUserId : Nat) :
    UnshareResult :=
  match checkProjectAccess projects projectId callerId .owner with
  | .projectNotFound => .projectNotFound
  | .accessDenied => .accessDenied
  | .insufficientPermissions => .insufficientPermissions
  | .ok _ =>
      match projects.find? (fun p => p.id == projectId) with
      | none => .projectNotFound
      | some project =>
          let project' :=
            { project with
              sharedWith := project.sharedWith.filter (fun share => share.user != targetUserId) }
          .ok (projects.map (fun p => if p.id == projectId then project' else p))

/-- The `dueDate` part of the Mongo query built by
`GET /:projectId/tasks`: when a bound is supplied, `query.dueDate`
becomes `{$gte/$lte}` constraints, which a document lacking the field
does not match; timestamps are compared in full. -/
def dueDateQueryMatches (startDate endDate : Option Nat) (t : Task) : Bool :=
  match startDate, endDate with
  | none, none => true
  | _, _ =>
      match t.dueDate with
      | none => false
      | some d =>
          (match startDate with | none => true | some sd => decide (sd ≤ d)) &&
          (match endDate with | none => true | some ed => decide (d ≤ ed))

/-- The `tags` part of the Mongo query built by `GET /:projectId/tasks`:
`{ tags: { $in: tagArray } }` matches a document whose `tags` array has
an element equal to some element of `tagArray` (exact, case-sensitive
string equality; a lone string is wrapped, never comma-split). -/
def tagsQueryMatches (tagsFilter : Option (List String)) (t : Task) : Bool :=
  match tagsFilter with
  | none => true
  | some tagArray => t.tags.any (fun tag => tagArray.contains tag)

/-- JavaScript strings, as the client-side filter manipulates them, are
modelled as lists of characters (kernel-reducible, unlike `String`'s
position-based primitives). -/
abbrev JsString := List Char

/-- JavaScript `s.split(',')`. -/
def splitComma : JsString → List JsString
  | [] => [[]]
  | c :: cs =>
      if c = ',' then [] :: splitComma cs
      else
        match splitComma cs with
        | [] => [[c]]
        | w :: ws => (c :: w) :: ws

/-- JavaScript `s.trim()`: strip whitespace from both ends. -/
def trimChars (l : JsString) : JsString :=
  ((l.dropWhile Char.isWhitespace).reverse.dropWhile Char.isWhitespace).reverse

/-- JavaScript `s.toLowerCase()` (character-wise lowering). -/
def lowerChars (l : JsString) : JsString :=
  l.map Char.toLower

/-- Helper for `includesChars`: needle is a prefix of haystack. -/
def startsWithChars : JsString → JsString → Bool
  | [], _ => true
  | _ :: _, [] => false
  | a :: as, b :: bs => a == b && startsWithChars as bs

/-- JavaScript `haystack.includes(needle)`: substring containment. -/
def includesChars (haystack needle : JsString) : Bool :=
  if startsWithChars needle haystack then true
  else
    match haystack with
    | [] => false
    | _ :: rest => includesChars rest needle

/-- JavaScript `a < b` on strings: lexicographic comparison by code
point. -/
def listLtChars : JsString → JsString → Bool
  | [], [] => false
  | [], _ :: _ => true
  | _ :: _, [] => false
  | a :: as, b :: bs => if a < b then true else if b < a then false else listLtChars as bs

/-- The `toDateString` helper of the client-side filter in
`ProjectDetails.tsx`: keep the calendar-date prefix (10 characters) of
the ISO string. -/
def toDateString (dueDate : Option JsString) : Option JsString :=
  dueDate.map (fun d => d.take 10)

/-- The date-range branch of the client-side filter in
`ProjectDetails.tsx`: a bound only applies when the task has a due date;
date strings are compared lexicographically on the calendar-date part. -/
def clientDateFilter (startDate endDate : Option JsString) (dueDate : Option JsString) : Bool :=
  let taskDateStr := toDateString dueDate
  let failStart :=
    match startDate, taskDateStr with
    | some sd, some td => listLtChars td sd
    | _, _ => false
  let failEnd :=
    match endDate, taskDateStr with
    | some ed, some td => listLtChars ed td
    | _, _ => false
  !failStart && !failEnd

/-- The tags branch of the client-side filter in `ProjectDetails.tsx`:
lower-case the comma-separated filter string, split and trim it, and
pass when any task tag contains any fragment as a substring. -/
def clientTagsFilter (filterTags : Option JsString) (taskTags : List JsString) : Bool :=
  match filterTags with
  | none => true
  | some raw =>
      let fragments := (splitComma (lowerChars raw)).map trimChars
      let lowered := taskTags.map lowerChars
      fragments.any (fun fragment => lowered.any (fun tag => includesChars tag fragment))

/-- Modelled from the spec: the roll-up rule as §4.2 words it (all
children Done gives Done; else at least one child Done or In Progress
gives In Progress; else To Do).  Stated over the children's statuses for
comparison with the implemented `rollupStatus`. -/
def specRollupStatus (children : List Status) : Status :=
  if children.all (fun c => c == .done) then .done
  else if children.any (fun c => c == .done || c == .inProgress) then .inProgress
  else .toDo

/-- Bounded ancestor check with the fuel every caller in this file uses:
the store's size (sufficient by `upChainHits_complete`). -/
def reachesB (s : Store) (x root : Nat) : Bool :=
  upChainHits s s.length x root

/-- The structural part of a task: id, parent pointer and project.  The
status roll-up rewrites statuses only, so it preserves the store's image
under `shape`. -/
def shape (t : Task) : Nat × Option Nat × Nat :=
  (t.id, t.parentTask, t.project)

/-- A decidable certificate for acyclicity of a concrete store: a rank
function that strictly decreases along parent pointers. -/
def rankOk (h : Nat → Nat) (t : Task) : Bool :=
  match t.parentTask with
  | none => true
  | some p => decide (h p < h t.id)

/-- Stores reachable from the empty collection by accepted `createTask`
and `updateTask` (reparent) requests; fresh ids come from the store. -/
inductive Reachable : Store → Prop where
  | init : Reachable []
  | create {s : Store} {projectId newId : Nat} {attrs : CreateAttrs}
      {parentTaskId : Option Nat} {s' : Store} :
      Reachable s → newId ∉ s.map Task.id →
      createTask s projectId newId attrs parentTaskId = .ok s' → Reachable s'
  | update {s : Store} {projectId taskId : Nat} {patch : UpdatePatch} {s' : Store} :
      Reachable s → updateTask s projectId taskId patch = .ok s' → Reachable s'

/-- A baseline task record for concrete test stores. -/
def task0 : Task :=
  { id := 0, name := "t", description := "", status := .toDo,
    priority := .medium, dueDate := none, project := 0,
    parentTask := none, order := 0, tags := [], assignee := none }

instance (s : Store) (t : Task) : Decidable (ParentInStore s t) :=
  match h : t.parentTask with
  | none => isTrue (by simp [ParentInStore, h])
  | some p =>
      decidable_of_iff (∃ u ∈ s, u.id = p ∧ u.project = t.project)
        (by simp [ParentInStore, h])

instance (s : Store) : Decidable (ParentsClosed s) :=
  inferInstanceAs (Decidable (∀ t ∈ s, ParentInStore s t))

instance (s : Store) : Decidable (NodupIds s) :=
  inferInstanceAs (Decidable (s.map Task.id).Nodup)

/-- The store `s2` differs from `s` only pointwise, with unchanged
structural shape, at ids satisfying `A` (used to localize what the
status roll-up hook may rewrite). -/
def TouchedWithin (A : Nat → Prop) (s s2 : Store) : Prop :=
  List.Forall₂ (fun u v => u = v ∨ (shape u = shape v ∧ A u.id)) s s2

/-- A project with one Editor share, for concrete checks. -/
def demoProjects : List Project :=
  [{ id := 1, name := "p", description := "", owner := 10,
     sharedWith := [{ user := 20, role := .editor }] }]

/-- A project shared with role Owner, for concrete checks. -/
def demoOwnerShare : List Project :=
  [{ id := 1, name := "p", description := "", owner := 10,
     sharedWith := [{ user := 20, role := .owner }] }]

/-- A parent task with one child, for concrete checks. -/
def demoPC : Store :=
  [{ task0 with id := 1, project := 5 },
   { task0 with id := 2, project := 5, parentTask := some 1 }]

/-- A three-task chain 3 → 2 → 1 in project 5, for concrete checks. -/
def demoChain : Store :=
  [{ task0 with id := 1, project := 5 },
   { task0 with id := 2, project := 5, parentTask := some 1 },
   { task0 with id := 3, project := 5, parentTask := some 2 }]

/-! ### Basic lookup lemmas -/

theorem findTask_id {s : Store} {x : Nat} {u : Task} (h : findTask s x = some u) :
    u.id = x := by
  have := List.find?_some h
  simpa using this

theorem findTask_mem {s : Store} {x : Nat} {u : Task} (h : findTask s x = some u) :
    u ∈ s :=
  List.mem_of_find?_eq_some h

theorem findTaskInProject_spec {s : Store} {x pid : Nat} {u : Task}
    (h : findTaskInProject s x pid = some u) :
    u ∈ s ∧ u.id = x ∧ u.project = pid := by
  have h1 := List.mem_of_find?_eq_some h
  have h2 := List.find?_some h
  simp only [Bool.and_eq_true, beq_iff_eq] at h2
  exact ⟨h1, h2.1, h2.2⟩

theorem id_inj {s : Store} (hnd : NodupIds s) {u v : Task}
    (hu : u ∈ s) (hv : v ∈ s) (h : u.id = v.id) : u = v :=
  List.inj_on_of_nodup_map hnd hu hv h

theorem mem_findTask {s : Store} (hnd : NodupIds s) {t : Task} (ht : t ∈ s) :
    findTask s t.id = some t := by
  cases hf : findTask s t.id with
  | none =>
      exfalso
      have := List.find?_eq_none.mp hf t ht
      simp at this
  | some u =>
      have : u = t := id_inj hnd (findTask_mem hf) ht (findTask_id hf)
      rw [this]

theorem findTask_mem_ids {s : Store} {x : Nat} {u : Task} (h : findTask s x = some u) :
    x ∈ s.map Task.id :=
  List.mem_map.mpr ⟨u, findTask_mem h, findTask_id h⟩

theorem exists_findTask_of_mem_ids {s : Store} {x : Nat} (h : x ∈ s.map Task.id) :
    ∃ u, findTask s x = some u := by
  cases hf : findTask s x with
  | some u => exact ⟨u, rfl⟩
  | none =>
      exfalso
      obtain ⟨t, ht, hid⟩ := List.mem_map.mp h
      have := List.find?_eq_none.mp hf t ht
      simp [hid] at this

theorem parentOf_eq {s : Store} (hnd : NodupIds s) {t : Task} (ht : t ∈ s) :
    parentOf s t.id = t.parentTask := by
  rw [parentOf, mem_findTask hnd ht]
  rfl

theorem parentOf_mem_ids {s : Store} {x p : Nat} (h : parentOf s x = some p) :
    x ∈ s.map Task.id := by
  rw [parentOf] at h
  cases hf : findTask s x with
  | none => rw [hf] at h; cases h
  | some u => exact findTask_mem_ids hf

/-! ### Parent-chain lemmas -/

theorem iterParent_one (f : Nat → Option Nat) (x : Nat) :
    iterParent f 1 x = f x := by
  cases h : f x <;> simp [iterParent, h]

theorem iterParent_add (f : Nat → Option Nat) (m n x : Nat) :
    iterParent f (m + n) x = (iterParent f m x).bind (iterParent f n) := by
  induction m generalizing x with
  | zero => simp [iterParent]
  | succ m ih =>
      rw [Nat.succ_add]
      cases h : f x with
      | none => simp [iterParent, h]
      | some p => simp [iterParent, h, ih]

theorem iterParent_succ_r (f : Nat → Option Nat) (n x : Nat) :
    iterParent f (n + 1) x = (iterParent f n x).bind f := by
  rw [iterParent_add f n 1 x]
  cases h : iterParent f n x with
  | none => rfl
  | some y => simp [iterParent_one]

theorem iterParent_isSome_of_le (f : Nat → Option Nat) {m k x : Nat} {y : Nat}
    (h : iterParent f m x = some y) (hk : k ≤ m) :
    ∃ v, iterParent f k x = some v := by
  obtain ⟨d, rfl⟩ := Nat.exists_eq_add_of_le hk
  rw [iterParent_add] at h
  cases hv : iterParent f k x with
  | none => rw [hv] at h; cases h
  | some v => exact ⟨v, rfl⟩

theorem acyclic_chain_inj (f : Nat → Option Nat) (hf : Acyclic f) {x z : Nat} {i j : Nat}
    (hi : iterParent f i x = some z) (hj : iterParent f j x = some z) : i = j := by
  have key : ∀ {a b : Nat}, a < b → iterParent f a x = some z →
      iterParent f b x = some z → False := by
    intro a b hab ha hb
    obtain ⟨d, rfl⟩ := Nat.exists_eq_add_of_lt hab
    rw [Nat.add_assoc, iterParent_add f a (d + 1) x, ha] at hb
    exact hf z d hb
  rcases Nat.lt_trichotomy i j with hlt | heq | hgt
  · exact absurd (key hlt hi hj) not_false
  · exact heq
  · exact absurd (key hgt hj hi) not_false

theorem chain_le_length {s : Store} (hac : Acyclic (parentOf s))
    {x y n : Nat} (h : iterParent (parentOf s) n x = some y) : n ≤ s.length := by
  classical
  set f := parentOf s with hfdef
  set val : Nat → Nat := fun k => (iterParent f k x).getD 0 with hval
  have hsome : ∀ k, k < n → ∃ v, iterParent f k x = some v := by
    intro k hk
    exact iterParent_isSome_of_le f h (Nat.le_of_lt hk)
  have hvalspec : ∀ k, k < n → iterParent f k x = some (val k) := by
    intro k hk
    obtain ⟨v, hv⟩ := hsome k hk
    rw [hval]
    simp [hv]
  have hinj : ∀ a ∈ List.range n, ∀ b ∈ List.range n, val a = val b → a = b := by
    intro a ha b hb hab
    rw [List.mem_range] at ha hb
    have h1 := hvalspec a ha
    have h2 := hvalspec b hb
    rw [hab] at h1
    exact (acyclic_chain_inj f hac h1 h2).symm ▸ rfl
  have hnodup : ((List.range n).map val).Nodup :=
    List.Nodup.map_on hinj (List.nodup_range n)
  have hsub : ∀ a ∈ (List.range n).map val, a ∈ s.map Task.id := by
    intro a ha
    obtain ⟨k, hk, rfl⟩ := List.mem_map.mp ha
    rw [List.mem_range] at hk
    have hkv := hvalspec k hk
    obtain ⟨w, hw⟩ := iterParent_isSome_of_le f h (Nat.succ_le_of_lt hk)
    rw [iterParent_succ_r, hkv] at hw
    exact parentOf_mem_ids hw
  have hcard : ((List.range n).map val).toFinset.card = n := by
    rw [List.toFinset_card_of_nodup hnodup]
    simp
  have hfin : ((List.range n).map val).toFinset ⊆ (s.map Task.id).toFinset := by
    intro a ha
    exact List.mem_toFinset.mpr (hsub a (List.mem_toFinset.mp ha))
  have := Finset.card_le_card hfin
  rw [hcard] at this
  calc n ≤ (s.map Task.id).toFinset.card := this
    _ ≤ (s.map Task.id).length := List.toFinset_card_le _
    _ = s.length := List.length_map _ _

theorem rank_step {s : Store} (h : Nat → Nat) (hr : ∀ t ∈ s, rankOk h t = true)
    {x p : Nat} (hp : parentOf s x = some p) : h p < h x := by
  rw [parentOf] at hp
  cases hf : findTask s x with
  | none => rw [hf] at hp; cases hp
  | some u =>
      rw [hf] at hp
      simp only [Option.bind] at hp
      have hmem := findTask_mem hf
      have hid := findTask_id hf
      have := hr u hmem
      rw [rankOk] at this
      cases hpt : u.parentTask with
      | none => rw [hpt] at hp; cases hp
      | some q =>
          rw [hpt] at hp this
          simp at this hp
          rw [← hp, ← hid]
          exact this

theorem acyclic_of_ranked (s : Store) (h : Nat → Nat)
    (hr : ∀ t ∈ s, rankOk h t = true) : Acyclic (parentOf s) := by
  have hdesc : ∀ n x y, iterParent (parentOf s) (n + 1) x = some y → h y < h x := by
    intro n
    induction n with
    | zero =>
        intro x y hxy
        rw [iterParent_one] at hxy
        exact rank_step h hr hxy
    | succ m ih =>
        intro x y hxy
        rw [iterParent_succ_r] at hxy
        cases hz : iterParent (parentOf s) (m + 1) x with
        | none => rw [hz] at hxy; cases hxy
        | some z =>
            rw [hz] at hxy
            simp at hxy
            exact Nat.lt_trans (rank_step h hr hxy) (ih x z hz)
  intro id n hcontra
  exact Nat.lt_irrefl _ (hdesc n id id hcontra)

/-! ### Claims with direct proofs -/

/-- Reduction of `checkProjectAccess` once the project lookup succeeds. -/
theorem checkProjectAccess_found {projects : List Project} {projectId userId : Nat}
    {requiredRole : Role} {P : Project}
    (hfind : projects.find? (fun p => p.id == projectId) = some P) :
    checkProjectAccess projects projectId userId requiredRole =
      (if P.owner == userId then .ok .owner
       else
         match P.sharedWith.find? (fun share => share.user == userId) with
         | none => .accessDenied
         | some share =>
             if roleHierarchy share.role < roleHierarchy requiredRole then
               .insufficientPermissions
             else .ok share.role) := by
  unfold checkProjectAccess
  rw [hfind]

/-- C4: role resolution and the authorization gate.  The project owner
resolves to Owner regardless of `sharedWith`; a shared user resolves to
the exact stored role; an unrelated user is denied; with access below
the required rank the gate answers InsufficientPermissions, otherwise it
succeeds and yields the resolved role. -/
theorem claim_C4 (projects : List Project) (projectId userId : Nat) (requiredRole : Role)
    (P : Project) (hfind : projects.find? (fun p => p.id == projectId) = some P) :
    (P.owner = userId →
        checkProjectAccess projects projectId userId requiredRole = .ok .owner) ∧
    (P.owner ≠ userId →
      (P.sharedWith.find? (fun share => share.user == userId) = none →
          checkProjectAccess projects projectId userId requiredRole = .accessDenied) ∧
      (∀ share, P.sharedWith.find? (fun share => share.user == userId) = some share →
        (roleHierarchy share.role < roleHierarchy requiredRole →
            checkProjectAccess projects projectId userId requiredRole =
              .insufficientPermissions) ∧
        (roleHierarchy requiredRole ≤ roleHierarchy share.role →
            checkProjectAccess projects projectId userId requiredRole = .ok share.role))) := by
  rw [checkProjectAccess_found hfind]
  constructor
  · intro h
    simp [h]
  · intro h
    have hbeq : (P.owner == userId) = false := by
      simpa using h
    rw [hbeq]
    simp only [Bool.false_eq_true, if_false]
    constructor
    · intro hnone
      rw [hnone]
    · intro share hshare
      rw [hshare]
      constructor
      · intro hlt
        simp [hlt]
      · intro hge
        have : ¬ roleHierarchy share.role < roleHierarchy requiredRole := Nat.not_lt.mpr hge
        simp [this]

theorem claim_C4_witness :
    checkProjectAccess demoProjects 1 10 .owner = .ok .owner ∧
    checkProjectAccess demoProjects 1 20 .owner = .insufficientPermissions ∧
    checkProjectAccess demoProjects 1 20 .viewer = .ok .editor ∧
    checkProjectAccess demoProjects 1 30 .viewer = .accessDenied := by
  refine ⟨?_, ?_, ?_, ?_⟩
  · exact (claim_C4 demoProjects 1 10 .owner _ rfl).1 rfl
  · exact (((claim_C4 demoProjects 1 20 .owner _ rfl).2 (by decide)).2 _ rfl).1 (by decide)
  · exact (((claim_C4 demoProjects 1 20 .viewer _ rfl).2 (by decide)).2 _ rfl).2 (by decide)
  · exact ((claim_C4 demoProjects 1 30 .viewer _ rfl).2 (by decide)).1 rfl

/-- C9: deleting a task that does not exist in the given project answers
NotFound and leaves the store unchanged. -/
theorem claim_C9 (s : Store) (projectId taskId : Nat)
    (h : ¬ ∃ t ∈ s, t.id = taskId ∧ t.project = projectId) :
    deleteTask s projectId taskId = .error (.notFound "Task not found") ∧
    deleteTaskStore s projectId taskId = s := by
  have hfind : findTaskInProject s taskId projectId = none := by
    apply List.find?_eq_none.mpr
    intro t ht
    simp only [Bool.and_eq_true, beq_iff_eq, not_and]
    intro hid hproj
    exact h ⟨t, ht, hid, hproj⟩
  constructor
  · rw [deleteTask, hfind]
  · rw [deleteTaskStore, deleteTask, hfind]

theorem claim_C9_witness :
    deleteTask demoPC 5 99 = .error (.notFound "Task not found") ∧
    deleteTaskStore demoPC 5 99 = demoPC :=
  claim_C9 demoPC 5 99 (by decide)

/-- C10: a `sharedWith` entry may carry role Owner, and such a user
passes the Owner gate: access resolves to Owner, project deletion
succeeds, and share/unshare reach their handlers. -/
theorem claim_C10 (projects : List Project) (tasks : Store) (users : List Nat)
    (projectId userId targetId : Nat) (newRole : Role) (P : Project)
    (hfind : projects.find? (fun p => p.id == projectId) = some P)
    (howner : P.owner ≠ userId)
    (hshare : P.sharedWith.find? (fun share => share.user == userId) =
      some { user := userId, role := .owner }) :
    checkProjectAccess projects projectId userId .owner = .ok .owner ∧
    deleteProject projects tasks projectId userId =
      .ok (projects.filter (fun p => p.id != projectId)) tasks ∧
    (users.contains targetId = true → targetId ≠ userId →
      ∃ ps, shareProject projects users projectId userId targetId newRole = .ok ps) ∧
    (∃ ps, unshareProject projects projectId userId targetId = .ok ps) := by
  have hbeq : (P.owner == userId) = false := by simpa using howner
  have hacc : checkProjectAccess projects projectId userId .owner = .ok .owner := by
    rw [checkProjectAccess_found hfind, hbeq]
    simp only [Bool.false_eq_true, if_false]
    rw [hshare]
    simp [roleHierarchy]
  refine ⟨hacc, ?_, ?_, ?_⟩
  · rw [deleteProject, hacc, hfind]
  · intro hc hne
    have hbne : (targetId == userId) = false := by simpa using hne
    rw [shareProject, hacc]
    simp only [hc, Bool.not_true, Bool.false_eq_true, if_false, hbne]
    rw [hfind]
    exact ⟨_, rfl⟩
  · rw [unshareProject, hacc, hfind]
    exact ⟨_, rfl⟩

theorem claim_C10_witness :
    checkProjectAccess demoOwnerShare 1 20 .owner = .ok .owner ∧
    deleteProject demoOwnerShare [] 1 20 =
      .ok (demoOwnerShare.filter (fun p => p.id != 1)) [] ∧
    (∃ ps, shareProject demoOwnerShare [10, 20, 30] 1 20 30 .viewer = .ok ps) ∧
    (∃ ps, unshareProject demoOwnerShare 1 20 30 = .ok ps) := by
  obtain ⟨h1, h2, h3, h4⟩ :=
    claim_C10 demoOwnerShare [] [10, 20, 30] 1 20 30 .viewer _ rfl (by decide) rfl
  exact ⟨h1, h2, h3 (by decide) (by decide), h4⟩

/-- C5 fails on the code: deleting a project succeeds for the owner but
the task store is returned untouched, so a task of the deleted project
remains. -/
theorem claim_C5_counterexample :
    deleteProject [{ id := 1, name := "p", description := "", owner := 10, sharedWith := [] }]
        [{ task0 with project := 1 }] 1 10 =
      .ok [] [{ task0 with project := 1 }] ∧
    (∃ t ∈ [{ task0 with project := 1 }], t.project = 1) := by
  constructor
  · rfl
  · exact ⟨_, List.mem_singleton.mpr rfl, rfl⟩

/-- C5 amended: owner-initiated project deletion removes only the
project document; the task collection is unchanged (no cascade). -/
theorem claim_C5_amended (projects : List Project) (tasks : Store) (projectId userId : Nat)
    (ps : List Project) (ts : Store)
    (h : deleteProject projects tasks projectId userId = .ok ps ts) :
    ts = tasks ∧ ps = projects.filter (fun p => p.id != projectId) := by
  unfold deleteProject at h
  split at h
  · split at h
    · cases h
    · cases h
      exact ⟨rfl, rfl⟩
  · cases h
  · cases h
  · cases h

theorem claim_C5_amended_witness :
    ([{ task0 with project := 1 }] : Store) = [{ task0 with project := 1 }] ∧
    ([] : List Project) =
      [({ id := 1, name := "p", description := "", owner := 10, sharedWith := [] } : Project)].filter
        (fun p => p.id != 1) :=
  claim_C5_amended
    [{ id := 1, name := "p", description := "", owner := 10, sharedWith := [] }]
    [{ task0 with project := 1 }] 1 10 [] [{ task0 with project := 1 }] rfl

/-- C7 fails on the code: the project task-listing query excludes a task
without a `dueDate` as soon as a bound is set, and it compares full
timestamps, so an inclusive end date excludes a task due later the same
calendar day (here: end bound = midnight of day 100, due date = 10:00 of
day 100, in epoch milliseconds). -/
theorem claim_C7_counterexample :
    dueDateQueryMatches (some 0) none task0 = false ∧
    task0.dueDate = none ∧
    dueDateQueryMatches none (some 8640000000) { task0 with dueDate := some 8676000000 } =
      false ∧
    8676000000 / 86400000 = (8640000000 : Nat) / 86400000 := by
  refine ⟨rfl, rfl, rfl, by decide⟩

/-- C7 amended: the task-listing date query passes every task only when
no bound is given; with a bound set it requires a present `dueDate`
whose full timestamp lies within the bounds.  The client-side filter, in
contrast, does pass tasks without a due date. -/
theorem claim_C7_amended :
    (∀ (startDate endDate : Option Nat) (t : Task),
        dueDateQueryMatches startDate endDate t = true ↔
          ((startDate = none ∧ endDate = none) ∨
            (∃ d, t.dueDate = some d ∧ (∀ sd, startDate = some sd → sd ≤ d) ∧
              (∀ ed, endDate = some ed → d ≤ ed)))) ∧
    (∀ startDate endDate, clientDateFilter startDate endDate none = true) := by
  constructor
  · intro sd ed t
    unfold dueDateQueryMatches
    rcases sd with _ | sd <;> rcases ed with _ | ed <;>
      rcases htd : t.dueDate with _ | d <;> simp [htd]
  · intro sd ed
    unfold clientDateFilter toDateString
    rcases sd with _ | sd <;> rcases ed with _ | ed <;> rfl

/-- C8 fails on the code: the task-listing tags query is an exact
`$in` match, so a case-insensitive substring fragment does not match,
and a comma-separated string is not split.  The client-side filter does
implement the substring rule. -/
theorem claim_C8_counterexample :
    tagsQueryMatches (some ["front"]) { task0 with tags := ["Frontend"] } = false ∧
    clientTagsFilter (some "front".data) ["Frontend".data] = true ∧
    tagsQueryMatches (some ["front,urgent"]) { task0 with tags := ["front"] } = false := by
  refine ⟨by decide, by decide, by decide⟩

/-- C8 amended: the task-listing tags query passes a task exactly when
some tag equals (case-sensitively) some element of the supplied array;
the client-side filter passes exactly when some lower-cased tag contains
some trimmed, lower-cased comma fragment as a substring. -/
theorem claim_C8_amended :
    (∀ (tagArray : List String) (t : Task),
        tagsQueryMatches (some tagArray) t = true ↔ ∃ tag ∈ t.tags, tag ∈ tagArray) ∧
    (∀ (raw : JsString) (taskTags : List JsString),
        clientTagsFilter (some raw) taskTags = true ↔
          ∃ fragment ∈ (splitComma (lowerChars raw)).map trimChars,
            ∃ tag ∈ taskTags, includesChars (lowerChars tag) fragment = true) := by
  constructor
  · intro tagArray t
    unfold tagsQueryMatches
    rw [List.any_eq_true]
    constructor
    · rintro ⟨tag, hmem, hc⟩
      exact ⟨tag, hmem, (List.elem_iff).mp hc⟩
    · rintro ⟨tag, hmem, hc⟩
      exact ⟨tag, hmem, (List.elem_iff).mpr hc⟩
  · intro raw taskTags
    unfold clientTagsFilter
    simp only [List.any_eq_true, List.mem_map]
    constructor
    · rintro ⟨fragment, hf, tag, ⟨t0, ht0, rfl⟩, hinc⟩
      exact ⟨fragment, hf, t0, ht0, hinc⟩
    · rintro ⟨fragment, hf, t0, ht0, hinc⟩
      exact ⟨fragment, hf, lowerChars t0, ⟨t0, ht0, rfl⟩, hinc⟩

/-- C1 fails on the code: a status change through the PATCH route is a
query update (`findByIdAndUpdate`), which does not run the save hooks,
so the parent's status does not change at all; and even the hook itself
counts only Done children, so a lone In Progress child yields To Do
where the spec rule yields In Progress. -/
theorem claim_C1_counterexample :
    (findTask (updateTaskStore demoPC 5 2 { status := some .done }) 1).map Task.status =
      some .toDo ∧
    specRollupStatus
        ((childrenOf (updateTaskStore demoPC 5 2 { status := some .done }) 1).map
          Task.status) = .done ∧
    rollupStatus [{ task0 with status := .inProgress }] = .toDo ∧
    specRollupStatus [.inProgress] = .inProgress := by
  refine ⟨by decide, by decide, by decide, by decide⟩

/-! ### Walk soundness and completeness -/

theorem descendantWalk_sound {s : Store} {t x fuel : Nat}
    (h : descendantWalk s t fuel (findTask s x) = true) :
    ∃ n, iterParent (parentOf s) (n + 1) x = some t := by
  induction fuel generalizing x with
  | zero =>
      cases hf : findTask s x <;> rw [hf] at h <;> simp [descendantWalk] at h
  | succ fuel ih =>
      cases hf : findTask s x with
      | none => rw [hf] at h; simp [descendantWalk] at h
      | some cur =>
          rw [hf] at h
          by_cases hpt : cur.parentTask = some t
          · refine ⟨0, ?_⟩
            rw [iterParent_one, parentOf, hf]
            simpa using hpt
          · have hbeq : (cur.parentTask == some t) = false := by
              simpa using hpt
            rw [descendantWalk, hbeq] at h
            simp only [Bool.false_eq_true, if_false] at h
            cases hp : cur.parentTask with
            | none => rw [hp] at h; simp [Option.bind, descendantWalk] at h
            | some p =>
                rw [hp] at h
                simp only [Option.bind] at h
                obtain ⟨n, hn⟩ := ih (x := p) h
                refine ⟨n + 1, ?_⟩
                rw [show n + 1 + 1 = 1 + (n + 1) by omega, iterParent_add, iterParent_one,
                  parentOf, hf]
                simpa [hp] using hn

theorem descendantWalk_complete {s : Store} {t x n fuel : Nat}
    (h : iterParent (parentOf s) (n + 1) x = some t) (hfuel : n + 1 ≤ fuel) :
    descendantWalk s t fuel (findTask s x) = true := by
  induction n generalizing x fuel with
  | zero =>
      rw [iterParent_one, parentOf] at h
      cases hf : findTask s x with
      | none => rw [hf] at h; cases h
      | some cur =>
          rw [hf] at h
          simp only [Option.bind] at h
          obtain ⟨f', rfl⟩ : ∃ f', fuel = f' + 1 := ⟨fuel - 1, by omega⟩
          rw [descendantWalk]
          simp [h]
  | succ m ih =>
      rw [show m + 1 + 1 = 1 + (m + 1) by omega, iterParent_add, iterParent_one] at h
      cases hp : parentOf s x with
      | none => rw [hp] at h; cases h
      | some p =>
          rw [hp] at h
          simp only [Option.bind] at h
          obtain ⟨f', rfl⟩ : ∃ f', fuel = f' + 1 := ⟨fuel - 1, by omega⟩
          have hpx := hp
          rw [parentOf] at hpx
          cases hf : findTask s x with
          | none => rw [hf] at hpx; cases hpx
          | some cur =>
              rw [hf] at hpx
              simp only [Option.bind] at hpx
              rw [descendantWalk]
              by_cases hpt : cur.parentTask = some t
              · simp [hpt]
              · have hbeq : (cur.parentTask == some t) = false := by
                  simpa using hpt
                rw [hbeq]
                simp only [Bool.false_eq_true, if_false]
                rw [hpx]
                simp only [Option.bind]
                exact ih h (by omega)

theorem upChainHits_sound {s : Store} {x t fuel : Nat}
    (h : upChainHits s fuel x t = true) : ReachesUp s x t := by
  induction fuel generalizing x with
  | zero =>
      rw [upChainHits] at h
      have hx : x = t := by simpa using h
      exact ⟨0, by simp [iterParent, hx]⟩
  | succ fuel ih =>
      rw [upChainHits] at h
      by_cases hxe : x = t
      · exact ⟨0, by simp [iterParent, hxe]⟩
      · have hbeq : (x == t) = false := by simpa using hxe
        rw [hbeq] at h
        simp only [Bool.false_or] at h
        cases hp : parentOf s x with
        | none => rw [hp] at h; cases h
        | some p =>
            rw [hp] at h
            obtain ⟨n, hn⟩ := ih (x := p) h
            refine ⟨n + 1, ?_⟩
            rw [show n + 1 = 1 + n by omega, iterParent_add, iterParent_one, hp]
            simpa using hn

theorem upChainHits_complete {s : Store} {x t n fuel : Nat}
    (h : iterParent (parentOf s) n x = some t) (hfuel : n ≤ fuel) :
    upChainHits s fuel x t = true := by
  induction n generalizing x fuel with
  | zero =>
      have hx : x = t := by simpa [iterParent] using h
      cases fuel <;> rw [upChainHits] <;> simp [hx]
  | succ m ih =>
      rw [show m + 1 = 1 + m by omega, iterParent_add, iterParent_one] at h
      cases hp : parentOf s x with
      | none => rw [hp] at h; cases h
      | some p =>
          rw [hp] at h
          simp only [Option.bind] at h
          obtain ⟨f', rfl⟩ : ∃ f', fuel = f' + 1 := ⟨fuel - 1, by omega⟩
          rw [upChainHits, hp]
          have hrec := ih h (show m ≤ f' by omega)
          simp [hrec]

theorem reachesB_iff {s : Store} (hac : Acyclic (parentOf s)) {x t : Nat} :
    reachesB s x t = true ↔ ReachesUp s x t := by
  constructor
  · exact upChainHits_sound
  · rintro ⟨n, hn⟩
    exact upChainHits_complete hn (chain_le_length hac hn)

theorem circularWalk_mem {s : Store} {selfId fuel : Nat} {ocur : Option Task}
    (hcur : ∀ cur, ocur = some cur → cur ∈ s)
    (h : circularWalk s selfId fuel ocur = true) : selfId ∈ s.map Task.id := by
  induction fuel generalizing ocur with
  | zero => cases ocur <;> simp [circularWalk] at h
  | succ fuel ih =>
      cases ocur with
      | none => simp [circularWalk] at h
      | some cur =>
          by_cases hid : cur.id = selfId
          · exact List.mem_map.mpr ⟨cur, hcur cur rfl, hid⟩
          · have hbeq : (cur.id == selfId) = false := by simpa using hid
            rw [circularWalk, hbeq] at h
            simp only [Bool.false_eq_true, if_false] at h
            refine ih ?_ h
            intro c hc
            cases hp : cur.parentTask with
            | none => rw [hp] at hc; cases hc
            | some p =>
                rw [hp] at hc
                simp only [Option.bind] at hc
                exact findTask_mem hc

/-! ### Sublist transfer -/

theorem findTask_sublist {s' s : Store} (hsub : List.Sublist s' s) (hnd : NodupIds s)
    {x : Nat} {u : Task} (h : findTask s' x = some u) : findTask s x = some u := by
  have hmem : u ∈ s := hsub.mem (findTask_mem h)
  have hid := findTask_id h
  rw [← hid]
  exact mem_findTask hnd hmem

theorem parentOf_sublist {s' s : Store} (hsub : List.Sublist s' s) (hnd : NodupIds s)
    {x p : Nat} (h : parentOf s' x = some p) : parentOf s x = some p := by
  rw [parentOf] at h ⊢
  cases hf : findTask s' x with
  | none => rw [hf] at h; cases h
  | some u =>
      rw [hf] at h
      rw [findTask_sublist hsub hnd hf]
      exact h

theorem iterParent_sublist {s' s : Store} (hsub : List.Sublist s' s) (hnd : NodupIds s)
    {n x y : Nat} (h : iterParent (parentOf s') n x = some y) :
    iterParent (parentOf s) n x = some y := by
  induction n generalizing x with
  | zero => exact h
  | succ m ih =>
      rw [show m + 1 = 1 + m by omega, iterParent_add, iterParent_one] at h ⊢
      cases hp : parentOf s' x with
      | none => rw [hp] at h; cases h
      | some p =>
          rw [hp] at h
          rw [parentOf_sublist hsub hnd hp]
          simp only [Option.bind] at h ⊢
          exact ih h

theorem nodupIds_sublist {s' s : Store} (hsub : List.Sublist s' s) (hnd : NodupIds s) :
    NodupIds s' :=
  hnd.sublist (hsub.map Task.id)

theorem acyclic_sublist {s' s : Store} (hsub : List.Sublist s' s) (hnd : NodupIds s)
    (hac : Acyclic (parentOf s)) : Acyclic (parentOf s') :=
  fun id n h => hac id n (iterParent_sublist hsub hnd h)

/-! ### setTask lemmas -/

theorem setTask_ids (s : Store) (t : Task) : (setTask s t).map Task.id = s.map Task.id := by
  rw [setTask, List.map_map]
  apply List.map_congr_left
  intro u _
  by_cases h : u.id = t.id <;> simp [h]

theorem nodupIds_setTask {s : Store} {t : Task} (hnd : NodupIds s) :
    NodupIds (setTask s t) := by
  rw [NodupIds, setTask_ids]
  exact hnd

theorem findTask_setTask_self {s : Store} {t : Task} (hx : t.id ∈ s.map Task.id) :
    findTask (setTask s t) t.id = some t := by
  induction s with
  | nil => simp at hx
  | cons u rest ih =>
      rw [setTask, List.map_cons, ← setTask]
      by_cases h : u.id = t.id
      · rw [if_pos (by simpa using h)]
        rw [findTask, List.find?_cons_of_pos _ (by simp)]
      · rw [if_neg (by simpa using h)]
        rw [findTask, List.find?_cons_of_neg _ (by simpa using h)]
        apply ih
        rcases List.mem_map.mp hx with ⟨v, hv, hvid⟩
        rcases List.mem_cons.mp hv with rfl | hv2
        · exact absurd hvid h
        · exact List.mem_map.mpr ⟨v, hv2, hvid⟩

theorem findTask_setTask_other {s : Store} {t : Task} {x : Nat} (hx : x ≠ t.id) :
    findTask (setTask s t) x = findTask s x := by
  induction s with
  | nil => rfl
  | cons u rest ih =>
      rw [setTask, List.map_cons, ← setTask]
      by_cases h : u.id = t.id
      · rw [if_pos (by simpa using h)]
        rw [findTask, List.find?_cons_of_neg _ (by simpa using fun he => hx he.symm),
          findTask, List.find?_cons_of_neg _ (by simp [h]; exact fun he => hx he.symm)]
        exact ih
      · rw [if_neg (by simpa using h)]
        by_cases hux : u.id = x
        · rw [findTask, List.find?_cons_of_pos _ (by simpa using hux),
            findTask, List.find?_cons_of_pos _ (by simpa using hux)]
        · rw [findTask, List.find?_cons_of_neg _ (by simpa using hux),
            findTask, List.find?_cons_of_neg _ (by simpa using hux)]
          exact ih

theorem parentOf_setTask {s : Store} {t : Task} (hmem : t.id ∈ s.map Task.id) :
    parentOf (setTask s t) = fun x => if x = t.id then t.parentTask else parentOf s x := by
  funext x
  by_cases hx : x = t.id
  · subst hx
    rw [parentOf, findTask_setTask_self hmem, if_pos rfl]
    rfl
  · rw [parentOf, findTask_setTask_other hx, if_neg hx]
    rfl

theorem mem_setTask_self {s : Store} {t old : Task} (hold : old ∈ s) (hid : old.id = t.id) :
    t ∈ setTask s t :=
  List.mem_map.mpr ⟨old, hold, by simp [hid]⟩

theorem mem_setTask_of_ne {s : Store} {t u : Task} (hu : u ∈ s) (hne : u.id ≠ t.id) :
    u ∈ setTask s t :=
  List.mem_map.mpr ⟨u, hu, by simp [hne]⟩

theorem mem_of_mem_setTask {s : Store} {t u : Task} (hu : u ∈ setTask s t) :
    u = t ∨ u ∈ s := by
  rcases List.mem_map.mp hu with ⟨v, hv, hvu⟩
  by_cases h : v.id = t.id
  · left; rw [← hvu]; simp [h]
  · right; rw [← hvu]; simpa [h] using hv

/-! ### Acyclicity is preserved by single-pointer updates -/

theorem iterParent_congr_avoid (f g : Nat → Option Nat) (t0 : Nat)
    (hfg : ∀ x, x ≠ t0 → g x = f x) :
    ∀ m x, (∀ k, k < m → iterParent g k x ≠ some t0) →
      iterParent g m x = iterParent f m x := by
  intro m
  induction m with
  | zero => intro x _; rfl
  | succ m ih =>
      intro x hx
      have hx0 : x ≠ t0 := by
        intro he
        exact hx 0 (Nat.succ_pos m) (by simp [iterParent, he])
      rw [show m + 1 = 1 + m by omega, iterParent_add, iterParent_add, iterParent_one,
        iterParent_one, hfg x hx0]
      cases hfx : f x with
      | none => rfl
      | some p =>
          simp only [Option.bind]
          apply ih
          intro k hk hcontra
          refine hx (k + 1) (by omega) ?_
          rw [show k + 1 = 1 + k by omega, iterParent_add, iterParent_one, hfg x hx0, hfx]
          simpa using hcontra

theorem cycle_shift (g : Nat → Option Nat) {x t0 c k : Nat}
    (hc : iterParent g c x = some x) (hk : iterParent g k x = some t0) (hkc : k ≤ c) :
    iterParent g c t0 = some t0 := by
  obtain ⟨d, rfl⟩ := Nat.exists_eq_add_of_le hkc
  have h1 : iterParent g d t0 = some x := by
    have hadd := iterParent_add g k d x
    rw [hc, hk] at hadd
    simpa using hadd.symm
  calc iterParent g (k + d) t0 = iterParent g (d + k) t0 := by rw [Nat.add_comm]
    _ = (iterParent g d t0).bind (iterParent g k) := iterParent_add g d k t0
    _ = iterParent g k x := by rw [h1]; rfl
    _ = some t0 := hk

theorem acyclic_pointUpdate (f : Nat → Option Nat) (hf : Acyclic f) (t0 p : Nat)
    (hguard : ∀ n, iterParent f n p ≠ some t0) :
    Acyclic (fun x => if x = t0 then some p else f x) := by
  classical
  intro id n hcyc
  set g := fun x => if x = t0 then some p else f x with hg
  have hfg : ∀ x, x ≠ t0 → g x = f x := by
    intro x hx
    simp [hg, hx]
  by_cases hvisit : ∃ k, k ≤ n ∧ iterParent g k id = some t0
  · obtain ⟨k, hk, hkt⟩ := hvisit
    have hcyc0 : iterParent g (n + 1) t0 = some t0 := cycle_shift g hcyc hkt (by omega)
    have hgt0 : g t0 = some p := by simp [hg]
    have hstep : iterParent g n p = some t0 := by
      rw [show n + 1 = 1 + n by omega, iterParent_add, iterParent_one, hgt0] at hcyc0
      simpa using hcyc0
    have hex : ∃ k, iterParent g k p = some t0 := ⟨n, hstep⟩
    have heq : iterParent g (Nat.find hex) p = iterParent f (Nat.find hex) p :=
      iterParent_congr_avoid f g t0 hfg (Nat.find hex) p
        (fun k hk => Nat.find_min hex hk)
    exact hguard (Nat.find hex) (heq ▸ Nat.find_spec hex)
  · push_neg at hvisit
    have heq : iterParent g (n + 1) id = iterParent f (n + 1) id :=
      iterParent_congr_avoid f g t0 hfg (n + 1) id
        (fun k hk => hvisit k (by omega))
    exact hf id n (heq ▸ hcyc)

theorem acyclic_pointRemove (f : Nat → Option Nat) (hf : Acyclic f) (t0 : Nat) :
    Acyclic (fun x => if x = t0 then none else f x) := by
  classical
  intro id n hcyc
  set g := fun x => if x = t0 then none else f x with hg
  have hfg : ∀ x, x ≠ t0 → g x = f x := by
    intro x hx
    simp [hg, hx]
  by_cases hvisit : ∃ k, k ≤ n ∧ iterParent g k id = some t0
  · obtain ⟨k, hk, hkt⟩ := hvisit
    have hcyc0 : iterParent g (n + 1) t0 = some t0 := cycle_shift g hcyc hkt (by omega)
    have hgt0 : g t0 = none := by simp [hg]
    rw [show n + 1 = 1 + n by omega, iterParent_add, iterParent_one, hgt0] at hcyc0
    cases hcyc0
  · push_neg at hvisit
    have heq : iterParent g (n + 1) id = iterParent f (n + 1) id :=
      iterParent_congr_avoid f g t0 hfg (n + 1) id
        (fun k hk => hvisit k (by omega))
    exact hf id n (heq ▸ hcyc)

/-! ### Unpacking accepted requests -/

theorem updateTask_ok {s : Store} {projectId taskId : Nat} {patch : UpdatePatch} {s' : Store}
    (h : updateTask s projectId taskId patch = .ok s') :
    ∃ task, findTaskInProject s taskId projectId = some task ∧
      updateParentCheck s projectId taskId task patch.parentTaskId = none ∧
      s' = setTask s (applyPatch task patch) := by
  rw [updateTask] at h
  split at h
  · cases h
  · rename_i task heq
    split at h
    · cases h
    · rename_i hchk
      cases h
      exact ⟨task, heq, hchk, rfl⟩

theorem updateParentCheck_none {s : Store} {projectId taskId : Nat} {task : Task} {p : Nat}
    (h : updateParentCheck s projectId taskId task (some p) = none)
    (hne : some p ≠ task.parentTask) :
    (∃ np, findTaskInProject s p projectId = some np) ∧ p ≠ taskId ∧
      descendantWalk s taskId (s.length + 1) (findTask s p) = false := by
  rw [updateParentCheck] at h
  have hbeq : (some p == task.parentTask) = false := by simpa using hne
  rw [hbeq] at h
  simp only [Bool.false_eq_true, if_false] at h
  split at h
  · cases h
  · rename_i np hnp
    by_cases hpt : p = taskId
    · rw [if_pos (by simpa using hpt)] at h
      cases h
    · rw [if_neg (by simpa using hpt)] at h
      refine ⟨⟨np, hnp⟩, hpt, ?_⟩
      by_cases hwalk : descendantWalk s taskId (s.length + 1) (findTask s p) = true
      · rw [if_pos hwalk] at h; cases h
      · simpa using hwalk

theorem createTask_ok {s : Store} {projectId newId : Nat} {attrs : CreateAttrs}
    {parentTaskId : Option Nat} {s' : Store}
    (h : createTask s projectId newId attrs parentTaskId = .ok s') :
    routeParentMissing s projectId parentTaskId = false ∧
    preSaveRejects s (newTask projectId newId attrs parentTaskId) = false ∧
    s' = postSaveHook (s ++ [newTask projectId newId attrs parentTaskId])
        (newTask projectId newId attrs parentTaskId)
        ((s ++ [newTask projectId newId attrs parentTaskId]).length + 1) := by
  rw [createTask] at h
  split at h
  · cases h
  · rename_i hroute
    simp only [] at h
    split at h
    · cases h
    · rename_i hpre
      cases h
      exact ⟨by simpa using hroute, by simpa using hpre, rfl⟩

/-! ### applyPatch shape facts -/

theorem applyPatch_id (t : Task) (patch : UpdatePatch) : (applyPatch t patch).id = t.id := rfl

theorem applyPatch_project (t : Task) (patch : UpdatePatch) :
    (applyPatch t patch).project = t.project := rfl

theorem applyPatch_parent_none {t : Task} {patch : UpdatePatch}
    (hp : patch.parentTaskId = none) : (applyPatch t patch).parentTask = t.parentTask := by
  rw [applyPatch, hp]

theorem applyPatch_parent_some {t : Task} {patch : UpdatePatch} {p : Nat}
    (hp : patch.parentTaskId = some p) : (applyPatch t patch).parentTask = some p := by
  rw [applyPatch, hp]

/-! ### ParentsClosed helpers -/

theorem parentInStore_of {s : Store} {t : Task}
    (h : ∀ q, t.parentTask = some q → ∃ u ∈ s, u.id = q ∧ u.project = t.project) :
    ParentInStore s t := by
  rw [ParentInStore]
  cases hp : t.parentTask with
  | none => trivial
  | some q => exact h q hp

theorem parentInStore_elim {s : Store} {t : Task} (h : ParentInStore s t) :
    ∀ q, t.parentTask = some q → ∃ u ∈ s, u.id = q ∧ u.project = t.project := by
  intro q hq
  rw [ParentInStore, hq] at h
  exact h

theorem setTask_resolver {s : Store} (hnd : NodupIds s) {told t' : Task}
    (htold : told ∈ s) (hid : t'.id = told.id) (hproj : t'.project = told.project)
    {q pr : Nat} (h : ∃ v ∈ s, v.id = q ∧ v.project = pr) :
    ∃ w ∈ setTask s t', w.id = q ∧ w.project = pr := by
  obtain ⟨v, hv, hvq, hvp⟩ := h
  by_cases hvid : v.id = t'.id
  · have hveq : v = told := id_inj hnd hv htold (by rw [hvid, hid])
    refine ⟨t', mem_setTask_self htold hid.symm, ?_, ?_⟩
    · rw [hid, ← hveq, hvq]
    · rw [hproj, ← hveq, hvp]
  · exact ⟨v, mem_setTask_of_ne hv hvid, hvq, hvp⟩

/-! ### WF is preserved by accepted updates -/

theorem WF_updateTask {s s' : Store} {projectId taskId : Nat} {patch : UpdatePatch}
    (hwf : WF s) (h : updateTask s projectId taskId patch = .ok s') : WF s' := by
  obtain ⟨hnd, hpc, hac⟩ := hwf
  obtain ⟨task, hfindT, hchk, rfl⟩ := updateTask_ok h
  obtain ⟨htmem, htid, htproj⟩ := findTaskInProject_spec hfindT
  have hidmem : (applyPatch task patch).id ∈ s.map Task.id :=
    List.mem_map.mpr ⟨task, htmem, rfl⟩
  have hparentRes : ∀ q, (applyPatch task patch).parentTask = some q →
      ∃ u ∈ s, u.id = q ∧ u.project = (applyPatch task patch).project := by
    intro q hq
    rw [applyPatch_project]
    cases hp : patch.parentTaskId with
    | none =>
        rw [applyPatch_parent_none hp] at hq
        exact parentInStore_elim (hpc task htmem) q hq
    | some p =>
        rw [applyPatch_parent_some hp] at hq
        cases hq
        by_cases hsame : some q = task.parentTask
        · exact parentInStore_elim (hpc task htmem) q hsame.symm
        · obtain ⟨⟨np, hnp⟩, _, _⟩ := updateParentCheck_none (hp ▸ hchk) hsame
          obtain ⟨hnpmem, hnpid, hnpproj⟩ := findTaskInProject_spec hnp
          exact ⟨np, hnpmem, hnpid, by rw [hnpproj, htproj]⟩
  refine ⟨nodupIds_setTask hnd, ?_, ?_⟩
  · intro u hu
    rcases mem_of_mem_setTask hu with rfl | humem
    · apply parentInStore_of
      intro q hq
      exact setTask_resolver hnd htmem (applyPatch_id task patch)
        (applyPatch_project task patch) (hparentRes q hq)
    · apply parentInStore_of
      intro q hq
      exact setTask_resolver hnd htmem (applyPatch_id task patch)
        (applyPatch_project task patch) (parentInStore_elim (hpc u humem) q hq)
  · rw [parentOf_setTask hidmem]
    cases hp : patch.parentTaskId with
    | none =>
        have hfun : (fun x => if x = (applyPatch task patch).id then
            (applyPatch task patch).parentTask else parentOf s x) = parentOf s := by
          funext x
          by_cases hx : x = (applyPatch task patch).id
          · rw [if_pos hx, applyPatch_parent_none hp, hx, applyPatch_id,
              parentOf_eq hnd htmem]
          · rw [if_neg hx]
        rw [hfun]
        exact hac
    | some p =>
        by_cases hsame : some p = task.parentTask
        · have hfun : (fun x => if x = (applyPatch task patch).id then
              (applyPatch task patch).parentTask else parentOf s x) = parentOf s := by
            funext x
            by_cases hx : x = (applyPatch task patch).id
            · rw [if_pos hx, applyPatch_parent_some hp, hsame, hx, applyPatch_id,
                parentOf_eq hnd htmem]
            · rw [if_neg hx]
          rw [hfun]
          exact hac
        · obtain ⟨⟨np, hnp⟩, hpne, hwalk⟩ := updateParentCheck_none (hp ▸ hchk) hsame
          have hguard : ∀ n, iterParent (parentOf s) n p ≠ some (applyPatch task patch).id := by
            intro n hcontra
            rw [applyPatch_id, htid] at hcontra
            cases n with
            | zero =>
                have : p = taskId := by simpa [iterParent] using hcontra
                exact hpne this
            | succ m =>
                have hlen : m + 1 ≤ s.length + 1 := by
                  have := chain_le_length hac hcontra
                  omega
                rw [descendantWalk_complete hcontra hlen] at hwalk
                cases hwalk
          have hupd := acyclic_pointUpdate (parentOf s) hac (applyPatch task patch).id p hguard
          have hfun : (fun x => if x = (applyPatch task patch).id then
              (applyPatch task patch).parentTask else parentOf s x) =
              (fun x => if x = (applyPatch task patch).id then some p else parentOf s x) := by
            funext x
            rw [applyPatch_parent_some hp]
          rw [hfun]
          exact hupd

/-! ### Shape preservation (status-only rewrites) -/

theorem shapeEq_findTask {s s2 : Store} (hsh : s2.map shape = s.map shape) (x : Nat) :
    (findTask s2 x).map shape = (findTask s x).map shape := by
  induction s generalizing s2 with
  | nil =>
      rw [List.map_nil] at hsh
      rw [List.map_eq_nil_iff.mp hsh]
  | cons u rest ih =>
      cases s2 with
      | nil => simp at hsh
      | cons v rest2 =>
          simp only [List.map_cons, List.cons.injEq] at hsh
          obtain ⟨hv, hrest⟩ := hsh
          have hid : v.id = u.id := congrArg Prod.fst hv
          simp only [findTask, List.find?_cons]
          by_cases hux : u.id = x
          · have hb1 : (v.id == x) = true := by simp [hid, hux]
            have hb2 : (u.id == x) = true := by simp [hux]
            rw [hb1, hb2]
            simpa using hv
          · have hb1 : (v.id == x) = false := by simp [hid, hux]
            have hb2 : (u.id == x) = false := by simp [hux]
            rw [hb1, hb2]
            exact ih hrest

theorem shapeEq_parentOf {s s2 : Store} (hsh : s2.map shape = s.map shape) :
    parentOf s2 = parentOf s := by
  funext x
  have hft := shapeEq_findTask hsh x
  rw [parentOf, parentOf]
  cases h2 : findTask s2 x <;> cases h1 : findTask s x <;> rw [h2, h1] at hft <;>
    simp at hft ⊢
  exact congrArg (fun q : Nat × Option Nat × Nat => q.2.1) hft

theorem shapeEq_ids {s s2 : Store} (hsh : s2.map shape = s.map shape) :
    s2.map Task.id = s.map Task.id := by
  have := congrArg (List.map (fun q : Nat × Option Nat × Nat => q.1)) hsh
  simpa [List.map_map, Function.comp] using this

theorem shapeEq_exists_mem {s s2 : Store} (hsh : s2.map shape = s.map shape) :
    ∀ u ∈ s2, ∃ v ∈ s, shape v = shape u := by
  induction s generalizing s2 with
  | nil =>
      rw [List.map_nil] at hsh
      rw [List.map_eq_nil_iff.mp hsh]
      intro u hu
      cases hu
  | cons w rest ih =>
      cases s2 with
      | nil => simp at hsh
      | cons v rest2 =>
          simp only [List.map_cons, List.cons.injEq] at hsh
          obtain ⟨hv, hrest⟩ := hsh
          intro u hu
          rcases List.mem_cons.mp hu with rfl | hu2
          · exact ⟨w, List.mem_cons_self w rest, hv.symm⟩
          · obtain ⟨v2, hv2, hv2sh⟩ := ih hrest u hu2
            exact ⟨v2, List.mem_cons_of_mem w hv2, hv2sh⟩

theorem WF_of_shapeEq {s s2 : Store} (hsh : s2.map shape = s.map shape) (hwf : WF s) :
    WF s2 := by
  obtain ⟨hnd, hpc, hac⟩ := hwf
  refine ⟨?_, ?_, ?_⟩
  · rw [NodupIds, shapeEq_ids hsh]
    exact hnd
  · intro u hu
    obtain ⟨v, hv, hvsh⟩ := shapeEq_exists_mem hsh u hu
    apply parentInStore_of
    intro q hq
    have hvpt : v.parentTask = u.parentTask := congrArg (fun w : Nat × Option Nat × Nat => w.2.1) hvsh
    have hvpr : v.project = u.project := congrArg (fun w : Nat × Option Nat × Nat => w.2.2) hvsh
    obtain ⟨w, hw, hwid, hwpr⟩ := parentInStore_elim (hpc v hv) q (by rw [hvpt, hq])
    obtain ⟨w2, hw2, hw2sh⟩ := shapeEq_exists_mem hsh.symm w hw
    refine ⟨w2, hw2, ?_, ?_⟩
    · rw [show w2.id = w.id from congrArg Prod.fst hw2sh, hwid]
    · rw [show w2.project = w.project from congrArg (fun q : Nat × Option Nat × Nat => q.2.2) hw2sh,
        hwpr, hvpr]
  · rw [shapeEq_parentOf hsh]
    exact hac

theorem setTask_shapeEq {s : Store} (hnd : NodupIds s) {told t' : Task}
    (hmem : told ∈ s) (hsh : shape t' = shape told) :
    (setTask s t').map shape = s.map shape := by
  rw [setTask, List.map_map]
  apply List.map_congr_left
  intro u hu
  by_cases h : u.id = t'.id
  · have ht'id : t'.id = told.id := congrArg Prod.fst hsh
    have hueq : u = told := id_inj hnd hu hmem (by rw [h, ht'id])
    simp only [Function.comp]
    rw [if_pos (by simpa using h), hsh, hueq]
  · simp only [Function.comp]
    rw [if_neg (by simpa using h)]

theorem postSaveHook_succ (s : Store) (t : Task) (fuel : Nat) :
    postSaveHook s t (fuel + 1) =
      match t.parentTask with
      | none => s
      | some pid =>
          match findTask s pid with
          | none => s
          | some parent =>
              if (childrenOf s pid).length > 0 then
                postSaveHook (setTask s { parent with status := rollupStatus (childrenOf s pid) })
                  { parent with status := rollupStatus (childrenOf s pid) } fuel
              else s :=
  rfl

theorem postSaveHook_shapeEq :
    ∀ (fuel : Nat) (s : Store) (t : Task), NodupIds s →
      (postSaveHook s t fuel).map shape = s.map shape := by
  intro fuel
  induction fuel with
  | zero => intro s t _; rfl
  | succ fuel ih =>
      intro s t hnd
      cases hpt : t.parentTask with
      | none => simp [postSaveHook_succ, hpt]
      | some pid =>
          cases hf : findTask s pid with
          | none => simp [postSaveHook_succ, hpt, hf]
          | some parent =>
              by_cases hn : (childrenOf s pid).length > 0
              · simp only [postSaveHook_succ, hpt, hf, if_pos hn]
                have hsh1 : (setTask s { parent with status := rollupStatus (childrenOf s pid) }).map shape
                    = s.map shape :=
                  setTask_shapeEq hnd (findTask_mem hf) rfl
                calc (postSaveHook (setTask s { parent with status := rollupStatus (childrenOf s pid) })
                        { parent with status := rollupStatus (childrenOf s pid) } fuel).map shape
                    = (setTask s { parent with status := rollupStatus (childrenOf s pid) }).map shape := by
                      apply ih
                      rw [NodupIds, setTask_ids]
                      exact hnd
                  _ = s.map shape := hsh1
              · simp [postSaveHook_succ, hpt, hf, hn]

theorem findTask_append (s : Store) (t : Task) (x : Nat) :
    findTask (s ++ [t]) x = (findTask s x).or (if t.id == x then some t else none) := by
  rw [findTask, List.find?_append]
  have hsingle : List.find? (fun u => u.id == x) [t] = if t.id == x then some t else none := by
    cases h : (t.id == x) <;> simp [List.find?_cons, h]
  rw [hsingle]
  rfl

theorem parentOf_append_fresh {s : Store} {t : Task} (hfresh : t.id ∉ s.map Task.id) :
    parentOf (s ++ [t]) = fun x => if x = t.id then t.parentTask else parentOf s x := by
  funext x
  rw [parentOf, findTask_append]
  by_cases hx : x = t.id
  · have hnone : findTask s x = none := by
      cases hf : findTask s x with
      | none => rfl
      | some u =>
          exact absurd (show t.id ∈ s.map Task.id by rw [← hx]; exact findTask_mem_ids hf)
            hfresh
    have hbx : (t.id == x) = true := by simp [hx]
    rw [hnone, if_pos hx, hbx]
    simp
  · rw [if_neg hx]
    have hbx : (t.id == x) = false := by
      simp
      exact fun h => hx h.symm
    rw [hbx]
    cases hf : findTask s x with
    | none => simp [parentOf, hf]
    | some u => simp [parentOf, hf]

theorem WF_createTask {s s' : Store} {projectId newId : Nat} {attrs : CreateAttrs}
    {par : Option Nat} (hwf : WF s) (hfresh : newId ∉ s.map Task.id)
    (h : createTask s projectId newId attrs par = .ok s') : WF s' := by
  obtain ⟨hnd, hpc, hac⟩ := hwf
  obtain ⟨hroute, hpre, rfl⟩ := createTask_ok h
  have happnd : WF (s ++ [newTask projectId newId attrs par]) := by
    refine ⟨?_, ?_, ?_⟩
    · rw [NodupIds, List.map_append, List.nodup_append]
      refine ⟨hnd, by simp, ?_⟩
      intro a ha hb
      simp only [List.map_cons, List.map_nil, List.mem_singleton] at hb
      exact hfresh ((show a = newId from hb) ▸ ha)
    · intro u hu
      rcases List.mem_append.mp hu with hus | hut
      · apply parentInStore_of
        intro q hq
        obtain ⟨w, hw, hwid, hwpr⟩ := parentInStore_elim (hpc u hus) q hq
        exact ⟨w, List.mem_append_left _ hw, hwid, hwpr⟩
      · have hueq : u = newTask projectId newId attrs par := by simpa using hut
        subst hueq
        apply parentInStore_of
        intro q hq
        have hqpar : par = some q := hq
        rw [hqpar] at hroute
        simp only [routeParentMissing] at hroute
        cases hff : findTaskInProject s q projectId with
        | none => rw [hff] at hroute; simp at hroute
        | some np =>
            obtain ⟨hnpmem, hnpid, hnppr⟩ := findTaskInProject_spec hff
            exact ⟨np, List.mem_append_left _ hnpmem, hnpid, hnppr⟩
    · rw [parentOf_append_fresh (show (newTask projectId newId attrs par).id ∉ s.map Task.id from hfresh)]
      show Acyclic (fun x => if x = newId then par else parentOf s x)
      cases par with
      | none => exact acyclic_pointRemove (parentOf s) hac newId
      | some pid =>
          apply acyclic_pointUpdate (parentOf s) hac newId pid
          intro n hcontra
          cases n with
          | zero =>
              have hpe : pid = newId := by simpa [iterParent] using hcontra
              simp only [routeParentMissing] at hroute
              cases hff : findTaskInProject s pid projectId with
              | none => rw [hff] at hroute; simp at hroute
              | some np =>
                  obtain ⟨hnpmem, hnpid, _⟩ := findTaskInProject_spec hff
                  exact hfresh (hpe ▸ (List.mem_map.mpr ⟨np, hnpmem, hnpid⟩))
          | succ m =>
              rw [iterParent_succ_r] at hcontra
              cases hz : iterParent (parentOf s) m pid with
              | none => rw [hz] at hcontra; cases hcontra
              | some z =>
                  rw [hz] at hcontra
                  simp only [Option.bind] at hcontra
                  rw [parentOf] at hcontra
                  cases hfz : findTask s z with
                  | none => rw [hfz] at hcontra; cases hcontra
                  | some uz =>
                      rw [hfz] at hcontra
                      simp only [Option.bind] at hcontra
                      obtain ⟨w, hw, hwid, _⟩ :=
                        parentInStore_elim (hpc uz (findTask_mem hfz)) newId hcontra
                      exact hfresh (List.mem_map.mpr ⟨w, hw, hwid⟩)
  exact WF_of_shapeEq (postSaveHook_shapeEq _ _ _ happnd.1) happnd

theorem WF_empty : WF ([] : Store) := by
  refine ⟨by simp [NodupIds], ?_, ?_⟩
  · intro t ht
    cases ht
  · intro id n hcontra
    rw [show n + 1 = 1 + n by omega, iterParent_add, iterParent_one] at hcontra
    simp [parentOf, findTask] at hcontra

theorem reachable_WF : ∀ {s : Store}, Reachable s → WF s := by
  intro s h
  induction h with
  | init => exact WF_empty
  | create _ hfresh hok ih => exact WF_createTask ih hfresh hok
  | update _ hok ih => exact WF_updateTask ih hok

/-- C2: in every store reachable by accepted createTask and reparent
requests, following `parentTask` pointers never returns to the starting
task: no task is its own (strict) ancestor. -/
theorem claim_C2 (s : Store) (h : Reachable s) :
    ∀ x n, iterParent (parentOf s) (n + 1) x ≠ some x :=
  (reachable_WF h).2.2

theorem claim_C2_witness :
    iterParent
      (parentOf [newTask 7 1 { name := "a" } none,
        { newTask 7 2 { name := "b" } (some 1) with status := .done }]) 1 2 ≠ some 2 := by
  have h1 : Reachable [newTask 7 1 { name := "a" } none] :=
    Reachable.create Reachable.init (by decide)
      (show createTask [] 7 1 { name := "a" } none =
        .ok [newTask 7 1 { name := "a" } none] from rfl)
  have h2 : Reachable [newTask 7 1 { name := "a" } none,
      newTask 7 2 { name := "b" } (some 1)] :=
    Reachable.create h1 (by decide)
      (show createTask [newTask 7 1 { name := "a" } none] 7 2 { name := "b" } (some 1) =
        .ok [newTask 7 1 { name := "a" } none, newTask 7 2 { name := "b" } (some 1)] from rfl)
  have h3 : Reachable [newTask 7 1 { name := "a" } none,
      { newTask 7 2 { name := "b" } (some 1) with status := .done }] :=
    Reachable.update h2
      (show updateTask [newTask 7 1 { name := "a" } none,
          newTask 7 2 { name := "b" } (some 1)] 7 2 { status := some .done } =
        .ok [newTask 7 1 { name := "a" } none,
          { newTask 7 2 { name := "b" } (some 1) with status := .done }] from rfl)
  exact claim_C2 _ h3 2 0

theorem chain_project {s : Store} (hnd : NodupIds s) (hpc : ParentsClosed s) :
    ∀ (n : Nat) {u : Task} {y : Nat}, u ∈ s → iterParent (parentOf s) n u.id = some y →
      ∃ v ∈ s, v.id = y ∧ v.project = u.project := by
  intro n
  induction n with
  | zero =>
      intro u y hu h
      have hy : y = u.id := by simpa [iterParent] using h.symm
      exact ⟨u, hu, hy.symm, rfl⟩
  | succ m ih =>
      intro u y hu h
      rw [show m + 1 = 1 + m by omega, iterParent_add, iterParent_one] at h
      cases hp : parentOf s u.id with
      | none => rw [hp] at h; cases h
      | some q =>
          rw [hp] at h
          simp only [Option.bind] at h
          have hup : u.parentTask = some q := by rw [← parentOf_eq hnd hu]; exact hp
          obtain ⟨w, hw, hwid, hwpr⟩ := parentInStore_elim (hpc u hu) q hup
          have hq : iterParent (parentOf s) m w.id = some y := by rw [hwid]; exact h
          obtain ⟨v, hv, hvid, hvpr⟩ := ih hw hq
          exact ⟨v, hv, hvid, by rw [hvpr, hwpr]⟩

theorem mem_findTaskInProject {s : Store} (hnd : NodupIds s) {t : Task} (ht : t ∈ s)
    {pid : Nat} (hpr : t.project = pid) : findTaskInProject s t.id pid = some t := by
  cases hf : findTaskInProject s t.id pid with
  | none =>
      exfalso
      have := List.find?_eq_none.mp hf t ht
      simp [hpr] at this
  | some u =>
      obtain ⟨humem, huid, _⟩ := findTaskInProject_spec hf
      rw [id_inj hnd humem ht huid]

/-- C6: reparenting a task A under one of its descendants C is rejected
with the conflict error, before any write: the store is unchanged (and
with it every field of A). -/
theorem claim_C6 (s : Store) (projectId : Nat) (A C : Task) (patch : UpdatePatch)
    (hwf : WF s)
    (hA : findTaskInProject s A.id projectId = some A)
    (hC : C ∈ s)
    (hdesc : ∃ n, iterParent (parentOf s) (n + 1) C.id = some A.id)
    (hpatch : patch.parentTaskId = some C.id) :
    updateTask s projectId A.id patch =
      .error (.badRequest "Cannot move task to its own descendant") ∧
    updateTaskStore s projectId A.id patch = s := by
  obtain ⟨hnd, hpc, hac⟩ := hwf
  obtain ⟨n, hchain⟩ := hdesc
  obtain ⟨hAmem, _, hAproj⟩ := findTaskInProject_spec hA
  have hCA : C.id ≠ A.id := by
    intro he
    rw [he] at hchain
    exact hac A.id n hchain
  have hCproj : C.project = projectId := by
    obtain ⟨v, hv, hvid, hvpr⟩ := chain_project hnd hpc (n + 1) hC hchain
    have hvA : v = A := id_inj hnd hv hAmem hvid
    rw [← hAproj, ← hvA, ← hvpr]
  have hfC : findTaskInProject s C.id projectId = some C :=
    mem_findTaskInProject hnd hC hCproj
  have hApar : some C.id ≠ A.parentTask := by
    intro he
    have hstep : parentOf s A.id = some C.id := by
      rw [parentOf_eq hnd hAmem]
      exact he.symm
    have hcyc : iterParent (parentOf s) (n + 1 + 1) C.id = some C.id := by
      rw [iterParent_succ_r, hchain]
      simpa using hstep
    exact hac C.id (n + 1) hcyc
  have hwalk : descendantWalk s A.id (s.length + 1) (findTask s C.id) = true := by
    apply descendantWalk_complete hchain
    have := chain_le_length hac hchain
    omega
  have hbeqpar : (some C.id == A.parentTask) = false := by simpa using hApar
  have hbeqself : (C.id == A.id) = false := by simpa using hCA
  have herr : updateTask s projectId A.id patch =
      .error (.badRequest "Cannot move task to its own descendant") := by
    rw [updateTask, hA]
    simp only [updateParentCheck, hpatch, hbeqpar, Bool.false_eq_true, if_false, hfC,
      hbeqself, hwalk, if_true]
  exact ⟨herr, by rw [updateTaskStore, herr]⟩

theorem claim_C6_witness :
    updateTask demoChain 5 1 { parentTaskId := some 3 } =
      .error (.badRequest "Cannot move task to its own descendant") ∧
    updateTaskStore demoChain 5 1 { parentTaskId := some 3 } = demoChain := by
  have hwf : WF demoChain :=
    ⟨by decide, by decide, acyclic_of_ranked demoChain (fun id => id) (by decide)⟩
  exact claim_C6 demoChain 5 { task0 with id := 1, project := 5 }
    { task0 with id := 3, project := 5, parentTask := some 2 } { parentTaskId := some 3 }
    hwf rfl (by decide) ⟨1, by decide⟩ rfl

/-! ### Localizing what the roll-up hook rewrites -/

theorem touchedWithin_refl (A : Nat → Prop) (s : Store) : TouchedWithin A s s := by
  rw [TouchedWithin]
  rw [List.forall₂_same]
  intro x _
  exact Or.inl rfl

theorem touchedWithin_mono {A B : Nat → Prop} (hAB : ∀ x, A x → B x) {s s2 : Store}
    (h : TouchedWithin A s s2) : TouchedWithin B s s2 := by
  rw [TouchedWithin] at h ⊢
  apply List.Forall₂.imp _ h
  intro u v huv
  rcases huv with rfl | ⟨hsh, hA⟩
  · exact Or.inl rfl
  · exact Or.inr ⟨hsh, hAB _ hA⟩

theorem touchedWithin_trans {A : Nat → Prop} {s1 s2 s3 : Store}
    (h12 : TouchedWithin A s1 s2) (h23 : TouchedWithin A s2 s3) :
    TouchedWithin A s1 s3 := by
  rw [TouchedWithin] at h12 h23 ⊢
  induction h12 generalizing s3 with
  | nil => cases h23; exact List.Forall₂.nil
  | cons huv htail ih =>
      cases h23 with
      | cons hvw htail2 =>
          refine List.Forall₂.cons ?_ (ih htail2)
          rcases huv with rfl | ⟨hsh1, hA1⟩
          · exact hvw
          · rcases hvw with rfl | ⟨hsh2, _⟩
            · exact Or.inr ⟨hsh1, hA1⟩
            · exact Or.inr ⟨hsh1.trans hsh2, hA1⟩

theorem setTask_touchedWithin {s : Store} (hnd : NodupIds s) {told t' : Task}
    (hmem : told ∈ s) (hsh : shape t' = shape told) :
    TouchedWithin (fun x => x = told.id) s (setTask s t') := by
  have htid : t'.id = told.id := congrArg Prod.fst hsh
  rw [TouchedWithin, setTask, List.forall₂_map_right_iff, List.forall₂_same]
  intro u hu
  by_cases h : u.id = t'.id
  · rw [if_pos (by simpa using h)]
    have hueq : u = told := id_inj hnd hu hmem (by rw [h, htid])
    refine Or.inr ⟨?_, by rw [hueq]⟩
    rw [hueq, hsh]
  · rw [if_neg (by simpa using h)]
    exact Or.inl rfl

theorem touchedWithin_findTask {A : Nat → Prop} {s s2 : Store}
    (h : TouchedWithin A s s2) {x : Nat} (hx : ¬ A x) :
    findTask s2 x = findTask s x := by
  rw [TouchedWithin] at h
  induction h with
  | nil => rfl
  | cons huv htail ih =>
      rename_i u v l1 l2
      rw [findTask, findTask, List.find?_cons, List.find?_cons]
      rcases huv with rfl | ⟨hsh, hA⟩
      · cases hb : (u.id == x) with
        | true => rfl
        | false => exact ih
      · have hid : u.id = v.id := congrArg Prod.fst hsh
        have hb : (u.id == x) = false := by
          simp only [beq_eq_false_iff_ne, ne_eq]
          intro he
          exact hx (he ▸ hA)
        rw [← hid, hb]
        exact ih

theorem touchedWithin_childrenOf {A : Nat → Prop} {s s2 : Store}
    (h : TouchedWithin A s s2) {pid : Nat}
    (hside : ∀ u ∈ s, A u.id → u.parentTask ≠ some pid) :
    childrenOf s2 pid = childrenOf s pid := by
  rw [TouchedWithin] at h
  induction h with
  | nil => rfl
  | cons huv htail ih =>
      rename_i u v l1 l2
      have hmemside : ∀ w ∈ l1, A w.id → w.parentTask ≠ some pid := by
        intro w hw
        exact hside w (List.mem_cons_of_mem u hw)
      have ihe : childrenOf l2 pid = childrenOf l1 pid := ih hmemside
      rcases huv with rfl | ⟨hsh, hA⟩
      · simp only [childrenOf, List.filter_cons] at ihe ⊢
        cases hb : (u.parentTask == some pid) <;> simp [hb, ihe]
      · have hpt : u.parentTask = v.parentTask :=
          congrArg (fun q : Nat × Option Nat × Nat => q.2.1) hsh
        have hb : (u.parentTask == some pid) = false := by
          simp only [beq_eq_false_iff_ne, ne_eq]
          exact hside u (List.mem_cons_self u l1) hA
        simp only [childrenOf, List.filter_cons] at ihe ⊢
        rw [← hpt, hb]
        simp [ihe]

theorem iterParent_prepend {f : Nat → Option Nat} {x p y : Nat} {m : Nat}
    (hstep : f x = some p) (h : iterParent f m p = some y) :
    iterParent f (m + 1) x = some y := by
  rw [show m + 1 = 1 + m by omega, iterParent_add, iterParent_one, hstep]
  simpa using h

theorem postSaveHook_touched :
    ∀ (fuel : Nat) (s : Store) (t : Task), NodupIds s → t ∈ s →
      TouchedWithin (fun x => ∃ m, iterParent (parentOf s) (m + 1) t.id = some x) s
        (postSaveHook s t fuel) := by
  intro fuel
  induction fuel with
  | zero => intro s t _ _; exact touchedWithin_refl _ s
  | succ fuel ih =>
      intro s t hnd ht
      cases hpt : t.parentTask with
      | none =>
          simp only [postSaveHook_succ, hpt]
          exact touchedWithin_refl _ s
      | some pid =>
          cases hf : findTask s pid with
          | none =>
              simp only [postSaveHook_succ, hpt, hf]
              exact touchedWithin_refl _ s
          | some parent =>
              by_cases hn : (childrenOf s pid).length > 0
              · simp only [postSaveHook_succ, hpt, hf, if_pos hn]
                have hpid : parent.id = pid := findTask_id hf
                have hpmem : parent ∈ s := findTask_mem hf
                have hstep : parentOf s t.id = some pid := by
                  rw [parentOf_eq hnd ht, hpt]
                have h1 : TouchedWithin (fun x => x = parent.id) s
                    (setTask s { parent with status := rollupStatus (childrenOf s pid) }) :=
                  setTask_touchedWithin hnd hpmem rfl
                have hnd1 : NodupIds
                    (setTask s { parent with status := rollupStatus (childrenOf s pid) }) :=
                  nodupIds_setTask hnd
                have hmem1 : { parent with status := rollupStatus (childrenOf s pid) } ∈
                    setTask s { parent with status := rollupStatus (childrenOf s pid) } :=
                  mem_setTask_self hpmem rfl
                have h2 := ih (setTask s { parent with status := rollupStatus (childrenOf s pid) })
                  { parent with status := rollupStatus (childrenOf s pid) } hnd1 hmem1
                have hpo : parentOf
                    (setTask s { parent with status := rollupStatus (childrenOf s pid) }) =
                    parentOf s :=
                  shapeEq_parentOf (setTask_shapeEq hnd hpmem rfl)
                have h1w : TouchedWithin
                    (fun x => ∃ m, iterParent (parentOf s) (m + 1) t.id = some x) s
                    (setTask s { parent with status := rollupStatus (childrenOf s pid) }) := by
                  apply touchedWithin_mono _ h1
                  intro x hx
                  refine ⟨0, ?_⟩
                  rw [iterParent_one, hstep, hx, hpid]
                have h2w : TouchedWithin
                    (fun x => ∃ m, iterParent (parentOf s) (m + 1) t.id = some x)
                    (setTask s { parent with status := rollupStatus (childrenOf s pid) })
                    (postSaveHook
                      (setTask s { parent with status := rollupStatus (childrenOf s pid) })
                      { parent with status := rollupStatus (childrenOf s pid) } fuel) := by
                  apply touchedWithin_mono _ h2
                  rintro x ⟨m, hm⟩
                  rw [hpo] at hm
                  have hm2 : iterParent (parentOf s) (m + 1) pid = some x := by
                    rw [← hpid]
                    exact hm
                  exact ⟨m + 1, iterParent_prepend hstep hm2⟩
                exact touchedWithin_trans h1w h2w
              · simp only [postSaveHook_succ, hpt, hf, if_neg hn]
                exact touchedWithin_refl _ s

theorem postSaveHook_rollup :
    ∀ (fuel : Nat) (s : Store) (t : Task), WF s → t ∈ s →
      (∀ a m, iterParent (parentOf s) (m + 1) t.id = some a → m + 1 ≤ fuel) →
      ∀ a m, iterParent (parentOf s) (m + 1) t.id = some a →
        (findTask (postSaveHook s t fuel) a).map Task.status =
          some (rollupStatus (childrenOf (postSaveHook s t fuel) a)) := by
  intro fuel
  induction fuel with
  | zero =>
      intro s t hwf ht hbound a m hchain
      exact absurd (hbound a m hchain) (by omega)
  | succ fuel ih =>
      intro s t hwf ht hbound a m hchain
      obtain ⟨hnd, hpc, hac⟩ := hwf
      have hfirst : ∃ pid, t.parentTask = some pid := by
        cases hpt : t.parentTask with
        | some pid => exact ⟨pid, rfl⟩
        | none =>
            exfalso
            rw [show m + 1 = 1 + m by omega, iterParent_add, iterParent_one,
              parentOf_eq hnd ht, hpt] at hchain
            cases hchain
      obtain ⟨pid, hpt⟩ := hfirst
      have hstep : parentOf s t.id = some pid := by rw [parentOf_eq hnd ht, hpt]
      obtain ⟨w, hw, hwid, _⟩ := parentInStore_elim (hpc t ht) pid hpt
      have hf : findTask s pid = some w := by
        rw [← hwid]
        exact mem_findTask hnd hw
      have htchild : t ∈ childrenOf s pid := by
        rw [childrenOf]
        exact List.mem_filter.mpr ⟨ht, by simp [hpt]⟩
      have hn : (childrenOf s pid).length > 0 := List.length_pos_of_mem htchild
      simp only [postSaveHook_succ, hpt, hf, if_pos hn]
      have hshEq : (setTask s { w with status := rollupStatus (childrenOf s pid) }).map shape =
          s.map shape := setTask_shapeEq hnd hw rfl
      have hwf1 : WF (setTask s { w with status := rollupStatus (childrenOf s pid) }) :=
        WF_of_shapeEq hshEq ⟨hnd, hpc, hac⟩
      have hpo : parentOf (setTask s { w with status := rollupStatus (childrenOf s pid) }) =
          parentOf s := shapeEq_parentOf hshEq
      have hmem1 : { w with status := rollupStatus (childrenOf s pid) } ∈
          setTask s { w with status := rollupStatus (childrenOf s pid) } :=
        mem_setTask_self hw rfl
      have hpid1 : ({ w with status := rollupStatus (childrenOf s pid) } : Task).id = pid := hwid
      cases m with
      | zero =>
          rw [iterParent_one, hstep] at hchain
          have ha : pid = a := by simpa using hchain
          subst ha
          have htc2 := postSaveHook_touched fuel
            (setTask s { w with status := rollupStatus (childrenOf s pid) })
            { w with status := rollupStatus (childrenOf s pid) } hwf1.1 hmem1
          have hfind2 : findTask (postSaveHook
              (setTask s { w with status := rollupStatus (childrenOf s pid) })
              { w with status := rollupStatus (childrenOf s pid) } fuel) pid =
              findTask (setTask s { w with status := rollupStatus (childrenOf s pid) }) pid := by
            apply touchedWithin_findTask htc2
            rintro ⟨m2, hm2⟩
            rw [hpo, hpid1] at hm2
            exact hac pid m2 hm2
          have hfind1 : findTask (setTask s { w with status := rollupStatus (childrenOf s pid) })
              pid = some { w with status := rollupStatus (childrenOf s pid) } := by
            rw [← hpid1]
            apply findTask_setTask_self
            rw [show ({ w with status := rollupStatus (childrenOf s pid) } : Task).id = w.id
              from rfl]
            exact List.mem_map.mpr ⟨w, hw, rfl⟩
          have hch2 : childrenOf (postSaveHook
              (setTask s { w with status := rollupStatus (childrenOf s pid) })
              { w with status := rollupStatus (childrenOf s pid) } fuel) pid =
              childrenOf (setTask s { w with status := rollupStatus (childrenOf s pid) }) pid := by
            apply touchedWithin_childrenOf htc2
            intro u hu hAu hupt
            obtain ⟨m2, hm2⟩ := hAu
            rw [hpo, hpid1] at hm2
            have hstepu : parentOf s u.id = some pid := by
              have := parentOf_eq hwf1.1 hu
              rw [hpo] at this
              rw [this, hupt]
            have hcyc : iterParent (parentOf s) (m2 + 1 + 1) pid = some pid := by
              rw [iterParent_succ_r, hm2]
              simpa using hstepu
            exact hac pid (m2 + 1) hcyc
          have hch1 : childrenOf (setTask s { w with status := rollupStatus (childrenOf s pid) })
              pid = childrenOf s pid := by
            apply touchedWithin_childrenOf (setTask_touchedWithin hnd hw
              (show shape ({ w with status := rollupStatus (childrenOf s pid) } : Task) =
                shape w from rfl))
            intro u hu hAu hupt
            have hueq : u = w := id_inj hnd hu hw hAu
            have hcyc : iterParent (parentOf s) 1 pid = some pid := by
              rw [iterParent_one, ← hwid, parentOf_eq hnd hw, ← hueq, hupt, hAu, hwid]
            exact hac pid 0 hcyc
          rw [hfind2, hfind1, hch2, hch1]
          rfl
      | succ m2 =>
          have hrest : iterParent (parentOf s) (m2 + 1) pid = some a := by
            rw [show m2 + 1 + 1 = 1 + (m2 + 1) by omega, iterParent_add, iterParent_one,
              hstep] at hchain
            simpa using hchain
          apply ih (setTask s { w with status := rollupStatus (childrenOf s pid) })
            { w with status := rollupStatus (childrenOf s pid) } hwf1 hmem1
          · intro b mb hmb
            rw [hpo, hpid1] at hmb
            have hext : iterParent (parentOf s) (mb + 1 + 1) t.id = some b :=
              iterParent_prepend hstep hmb
            have := hbound b (mb + 1) hext
            omega
          · rw [hpo, hpid1]
            exact hrest

/-- C1 amended: (a) a PATCH status change commits only the patched
document — every other task, ancestors included, is untouched (no
roll-up runs on the query-update path); (b) when a task document is
saved, the post-save hook recomputes the status of every ancestor along
the parent chain, up to the root, as `rollupStatus` of its children
(Done when all children are Done, In Progress when at least one child is
Done, To Do otherwise). -/
theorem claim_C1_amended :
    (∀ (s : Store) (projectId taskId : Nat) (patch : UpdatePatch) (s' : Store),
        updateTask s projectId taskId patch = .ok s' →
        ∀ x ∈ s', x.id ≠ taskId → x ∈ s) ∧
    (∀ (s : Store) (t : Task), WF s → t ∈ s →
        ∀ a m, iterParent (parentOf s) (m + 1) t.id = some a →
          (findTask (postSaveHook s t (s.length + 1)) a).map Task.status =
            some (rollupStatus (childrenOf (postSaveHook s t (s.length + 1)) a))) := by
  constructor
  · intro s projectId taskId patch s' h x hx hxid
    obtain ⟨task, hfindT, _, rfl⟩ := updateTask_ok h
    obtain ⟨_, htid, _⟩ := findTaskInProject_spec hfindT
    rcases mem_of_mem_setTask hx with rfl | hxs
    · exact absurd (by rw [applyPatch_id, htid]) hxid
    · exact hxs
  · intro s t hwf ht a m hchain
    apply postSaveHook_rollup (s.length + 1) s t hwf ht
    · intro b mb hmb
      have := chain_le_length hwf.2.2 hmb
      omega
    · exact hchain

theorem claim_C1_amended_witness :
    ({ task0 with id := 1, project := 5 } : Task) ∈ demoPC ∧
    (findTask
        (postSaveHook
          [{ task0 with id := 1, project := 5 },
           { task0 with id := 2, project := 5, parentTask := some 1, status := .done }]
          { task0 with id := 2, project := 5, parentTask := some 1, status := .done } 3) 1).map
        Task.status =
      some (rollupStatus
        (childrenOf
          (postSaveHook
            [{ task0 with id := 1, project := 5 },
             { task0 with id := 2, project := 5, parentTask := some 1, status := .done }]
            { task0 with id := 2, project := 5, parentTask := some 1, status := .done } 3) 1)) := by
  constructor
  · exact claim_C1_amended.1 demoPC 5 2 { status := some .done }
      (updateTaskStore demoPC 5 2 { status := some .done }) rfl
      { task0 with id := 1, project := 5 } (by decide) (by decide)
  · exact claim_C1_amended.2
      [{ task0 with id := 1, project := 5 },
       { task0 with id := 2, project := 5, parentTask := some 1, status := .done }]
      { task0 with id := 2, project := 5, parentTask := some 1, status := .done }
      ⟨by decide, by decide,
        acyclic_of_ranked _ (fun id => id) (by decide)⟩
      (by decide) 1 0 (by decide)

/-! ### Cascade delete: support lemmas -/

theorem deleteRec_succ (fuel : Nat) (s : Store) (id : Nat) :
    deleteRec (fuel + 1) s id =
      match findTask s id with
      | none => s
      | some _ =>
          removeTask ((childrenOf s id).foldl (fun acc sub => deleteRec fuel acc sub.id) s) id :=
  rfl

theorem mem_childrenOf {s : Store} {pid : Nat} {k : Task} :
    k ∈ childrenOf s pid ↔ k ∈ s ∧ k.parentTask = some pid := by
  rw [childrenOf, List.mem_filter]
  simp

theorem deleteRec_sublist : ∀ (fuel : Nat) (s : Store) (id : Nat),
    List.Sublist (deleteRec fuel s id) s := by
  intro fuel
  induction fuel with
  | zero => intro s id; exact List.Sublist.refl s
  | succ fuel ih =>
      intro s id
      rw [deleteRec_succ]
      cases hf : findTask s id with
      | none => exact List.Sublist.refl s
      | some T =>
          have hfold : ∀ (ks : List Task) (acc : Store),
              List.Sublist (ks.foldl (fun a k => deleteRec fuel a k.id) acc) acc := by
            intro ks
            induction ks with
            | nil => intro acc; exact List.Sublist.refl acc
            | cons k ks ihk =>
                intro acc
                rw [List.foldl_cons]
                exact (ihk (deleteRec fuel acc k.id)).trans (ih acc k.id)
          exact (List.filter_sublist _).trans (hfold (childrenOf s id) s)

theorem iterParent_split {f : Nat → Option Nat} {m d x : Nat} {y z : Nat}
    (h : iterParent f (m + d) x = some y) (hm : iterParent f m x = some z) :
    iterParent f d z = some y := by
  rw [iterParent_add, hm] at h
  simpa using h

theorem reachesUp_decompose {s : Store} {x tid : Nat}
    (h : ReachesUp s x tid) : x = tid ∨ ∃ k ∈ childrenOf s tid, ReachesUp s x k.id := by
  obtain ⟨n, hn⟩ := h
  cases n with
  | zero =>
      left
      simpa [iterParent] using hn
  | succ m =>
      right
      rw [iterParent_succ_r] at hn
      cases hz : iterParent (parentOf s) m x with
      | none => rw [hz] at hn; cases hn
      | some z =>
          rw [hz] at hn
          simp only [Option.bind] at hn
          rw [parentOf] at hn
          cases hfz : findTask s z with
          | none => rw [hfz] at hn; cases hn
          | some u =>
              rw [hfz] at hn
              simp only [Option.bind] at hn
              refine ⟨u, mem_childrenOf.mpr ⟨findTask_mem hfz, hn⟩, ⟨m, ?_⟩⟩
              rw [findTask_id hfz]
              exact hz

theorem reachesUp_extend {s : Store} (hnd : NodupIds s) {x tid : Nat} {k : Task}
    (hk : k ∈ childrenOf s tid) (h : ReachesUp s x k.id) : ReachesUp s x tid := by
  obtain ⟨hkmem, hkpt⟩ := mem_childrenOf.mp hk
  obtain ⟨n, hn⟩ := h
  refine ⟨n + 1, ?_⟩
  rw [iterParent_succ_r, hn]
  simp only [Option.bind]
  rw [parentOf_eq hnd hkmem, hkpt]

theorem sibling_sep {s : Store} (hnd : NodupIds s) (hac : Acyclic (parentOf s))
    {tid : Nat} {k ke : Task} (hk : k ∈ childrenOf s tid) (hke : ke ∈ childrenOf s tid)
    (hne : k.id ≠ ke.id) {w : Nat} (hwk : ReachesUp s w k.id)
    (hwke : ReachesUp s w ke.id) : False := by
  obtain ⟨hkmem, hkpt⟩ := mem_childrenOf.mp hk
  obtain ⟨hkemem, hkept⟩ := mem_childrenOf.mp hke
  obtain ⟨m1, hm1⟩ := hwk
  obtain ⟨m2, hm2⟩ := hwke
  have key : ∀ (a b : Task), a ∈ s → a.parentTask = some tid → b ∈ s →
      b.parentTask = some tid → a.id ≠ b.id →
      ∀ d, iterParent (parentOf s) (d + 1) a.id = some b.id → False := by
    intro a b hamem hapt hbmem hbpt hab d hd
    have hstepa : parentOf s a.id = some tid := by rw [parentOf_eq hnd hamem, hapt]
    have hstepb : parentOf s b.id = some tid := by rw [parentOf_eq hnd hbmem, hbpt]
    cases d with
    | zero =>
        rw [iterParent_one, hstepa] at hd
        have htb : tid = b.id := by simpa using hd
        have hcyc : iterParent (parentOf s) 1 tid = some tid := by
          rw [iterParent_one, htb, hstepb, htb]
        exact hac tid 0 hcyc
    | succ d2 =>
        have hrest : iterParent (parentOf s) (d2 + 1) tid = some b.id := by
          rw [show d2 + 1 + 1 = 1 + (d2 + 1) by omega, iterParent_add, iterParent_one,
            hstepa] at hd
          simpa using hd
        have hcyc : iterParent (parentOf s) (d2 + 1 + 1) tid = some tid := by
          rw [iterParent_succ_r, hrest]
          simpa using hstepb
        exact hac tid (d2 + 1) hcyc
  rcases Nat.lt_trichotomy m1 m2 with hlt | heq | hgt
  · obtain ⟨d, rfl⟩ := Nat.exists_eq_add_of_lt hlt
    exact key k ke hkmem hkpt hkemem hkept hne d
      (iterParent_split (by rw [show m1 + d + 1 = m1 + (d + 1) by omega] at hm2; exact hm2) hm1)
  · rw [heq] at hm1
    rw [hm1] at hm2
    exact hne (by simpa using hm2)
  · obtain ⟨d, rfl⟩ := Nat.exists_eq_add_of_lt hgt
    exact key ke k hkemem hkept hkmem hkpt (Ne.symm hne) d
      (iterParent_split (by rw [show m2 + d + 1 = m2 + (d + 1) by omega] at hm1; exact hm1) hm2)

theorem iterParent_restrict {s' s : Store} (hsub : List.Sublist s' s) (hnd : NodupIds s) :
    ∀ (n : Nat) (x y : Nat), iterParent (parentOf s) n x = some y →
      (∀ m z, m < n → iterParent (parentOf s) m x = some z → ∃ u ∈ s', u.id = z) →
      iterParent (parentOf s') n x = some y := by
  intro n
  induction n with
  | zero => intro x y h _; exact h
  | succ m ih =>
      intro x y h hsurv
      obtain ⟨u, hu, huid⟩ := hsurv 0 x (by omega) rfl
      have hfu : findTask s' x = some u := by
        rw [← huid]
        exact mem_findTask (nodupIds_sublist hsub hnd) hu
      have hfus : findTask s x = some u := by
        rw [← huid]
        exact mem_findTask hnd (hsub.mem hu)
      rw [show m + 1 = 1 + m by omega, iterParent_add, iterParent_one] at h ⊢
      have hpeq : parentOf s' x = parentOf s x := by
        rw [parentOf, parentOf, hfu, hfus]
      rw [hpeq]
      cases hp : parentOf s x with
      | none => rw [hp] at h; cases h
      | some p =>
          rw [hp] at h
          simp only [Option.bind] at h ⊢
          apply ih p y h
          intro m2 z hm2 hz
          refine hsurv (m2 + 1) z (by omega) ?_
          exact iterParent_prepend hp hz

theorem bool_eq_of_iff {a b : Bool} (h : a = true ↔ b = true) : a = b := by
  cases a <;> cases b <;> simp_all

theorem reach_filter_iff {s : Store} (hnd : NodupIds s) (hac : Acyclic (parentOf s))
    {tid : Nat} {done : List Task} (hdone : ∀ ke ∈ done, ke ∈ childrenOf s tid)
    {k : Task} (hk : k ∈ childrenOf s tid) (hknotin : ∀ ke ∈ done, k.id ≠ ke.id)
    (x : Nat) :
    ReachesUp (s.filter (fun u => done.all (fun ke => ! reachesB s u.id ke.id))) x k.id ↔
      ReachesUp s x k.id := by
  constructor
  · rintro ⟨n, hn⟩
    exact ⟨n, iterParent_sublist (List.filter_sublist s) hnd hn⟩
  · rintro ⟨n, hn⟩
    refine ⟨n, iterParent_restrict (List.filter_sublist s) hnd n x k.id hn ?_⟩
    intro m z hm hz
    have hnext : ∃ w, iterParent (parentOf s) (m + 1) x = some w := by
      obtain ⟨d, rfl⟩ := Nat.exists_eq_add_of_lt hm
      have := iterParent_isSome_of_le (parentOf s) hn (show m + 1 ≤ m + d + 1 by omega)
      exact this
    obtain ⟨w, hw⟩ := hnext
    rw [iterParent_succ_r, hz] at hw
    simp only [Option.bind] at hw
    rw [parentOf] at hw
    cases hfz : findTask s z with
    | none => rw [hfz] at hw; cases hw
    | some u =>
        have hurec : ReachesUp s u.id k.id := by
          refine ⟨n - m, ?_⟩
          rw [findTask_id hfz]
          refine iterParent_split ?_ hz
          rw [show m + (n - m) = n by omega]
          exact hn
        refine ⟨u, List.mem_filter.mpr ⟨findTask_mem hfz, ?_⟩, findTask_id hfz⟩
        rw [List.all_eq_true]
        intro ke hke
        have hnotreach : ¬ ReachesUp s u.id ke.id := by
          intro hcontra
          exact sibling_sep hnd hac hk (hdone ke hke) (hknotin ke hke) hurec hcontra
        simp only [Bool.not_eq_true']
        rw [← Bool.not_eq_true]
        intro hb
        exact hnotreach ((reachesB_iff hac).mp hb)

theorem deleteRec_fold
    (fuel : Nat)
    (hIH : ∀ (s : Store) (tid : Nat), NodupIds s → Acyclic (parentOf s) →
      tid ∈ s.map Task.id →
      (∀ x n, iterParent (parentOf s) n x = some tid → n < fuel) →
      deleteRec fuel s tid = s.filter (fun x => ! reachesB s x.id tid))
    (s : Store) (tid : Nat) (hnd : NodupIds s) (hac : Acyclic (parentOf s))
    (hbound : ∀ x n, iterParent (parentOf s) n x = some tid → n < fuel + 1) :
    ∀ (ks done : List Task), childrenOf s tid = done ++ ks →
      ks.foldl (fun acc k => deleteRec fuel acc k.id)
        (s.filter (fun x => done.all (fun k => ! reachesB s x.id k.id))) =
      s.filter (fun x => (done ++ ks).all (fun k => ! reachesB s x.id k.id)) := by
  intro ks
  induction ks with
  | nil =>
      intro done happ
      rw [List.foldl_nil, List.append_nil]
  | cons k ks ih =>
      intro done happ
      have hkidsnd : NodupIds (childrenOf s tid) :=
        nodupIds_sublist (List.filter_sublist s) hnd
      have hk : k ∈ childrenOf s tid := by
        rw [happ]
        exact List.mem_append.mpr (Or.inr (List.mem_cons_self k ks))
      obtain ⟨hkmem, hkpt⟩ := mem_childrenOf.mp hk
      have hdone : ∀ ke ∈ done, ke ∈ childrenOf s tid := by
        intro ke hke
        rw [happ]
        exact List.mem_append.mpr (Or.inl hke)
      have hknotin : ∀ ke ∈ done, k.id ≠ ke.id := by
        intro ke hke he
        rw [NodupIds, happ, List.map_append, List.nodup_append] at hkidsnd
        exact hkidsnd.2.2 (List.mem_map.mpr ⟨ke, hke, he.symm⟩)
          (by simp)
      have hkstep : parentOf s k.id = some tid := by
        rw [parentOf_eq hnd hkmem, hkpt]
      have hsubacc : List.Sublist
          (s.filter (fun x => done.all (fun ke => ! reachesB s x.id ke.id))) s :=
        List.filter_sublist s
      have hndacc : NodupIds (s.filter (fun x => done.all (fun ke => ! reachesB s x.id ke.id))) :=
        nodupIds_sublist hsubacc hnd
      have hacacc : Acyclic (parentOf
          (s.filter (fun x => done.all (fun ke => ! reachesB s x.id ke.id)))) :=
        acyclic_sublist hsubacc hnd hac
      have hkacc : k ∈ s.filter (fun x => done.all (fun ke => ! reachesB s x.id ke.id)) := by
        refine List.mem_filter.mpr ⟨hkmem, ?_⟩
        rw [List.all_eq_true]
        intro ke hke
        simp only [Bool.not_eq_true']
        rw [← Bool.not_eq_true]
        intro hb
        exact sibling_sep hnd hac hk (hdone ke hke) (hknotin ke hke) ⟨0, rfl⟩
          ((reachesB_iff hac).mp hb)
      have hstep : deleteRec fuel
          (s.filter (fun x => done.all (fun ke => ! reachesB s x.id ke.id))) k.id =
          (s.filter (fun x => done.all (fun ke => ! reachesB s x.id ke.id))).filter
            (fun x => ! reachesB
              (s.filter (fun u => done.all (fun ke => ! reachesB s u.id ke.id))) x.id k.id) := by
        apply hIH _ _ hndacc hacacc (List.mem_map.mpr ⟨k, hkacc, rfl⟩)
        intro x n hxn
        have hs : iterParent (parentOf s) n x = some k.id :=
          iterParent_sublist hsubacc hnd hxn
        have hext : iterParent (parentOf s) (n + 1) x = some tid := by
          rw [iterParent_succ_r, hs]
          simpa using hkstep
        have := hbound x (n + 1) hext
        omega
      have hconv : (s.filter (fun x => done.all (fun ke => ! reachesB s x.id ke.id))).filter
            (fun x => ! reachesB
              (s.filter (fun u => done.all (fun ke => ! reachesB s u.id ke.id))) x.id k.id) =
          s.filter (fun x => (done ++ [k]).all (fun ke => ! reachesB s x.id ke.id)) := by
        rw [List.filter_filter]
        apply List.filter_congr
        intro x hx
        rw [List.all_append]
        cases hQ : done.all (fun ke => ! reachesB s x.id ke.id) with
        | false => simp
        | true =>
            simp only [Bool.and_true, Bool.true_and, List.all_cons, List.all_nil]
            apply bool_eq_of_iff
            simp only [Bool.not_eq_true']
            rw [← Bool.not_eq_true, ← Bool.not_eq_true]
            constructor
            · intro hb hb2
              exact hb ((reachesB_iff hacacc).mpr
                ((reach_filter_iff hnd hac hdone hk hknotin x.id).mpr
                  ((reachesB_iff hac).mp hb2)))
            · intro hb hb2
              exact hb ((reachesB_iff hac).mpr
                ((reach_filter_iff hnd hac hdone hk hknotin x.id).mp
                  ((reachesB_iff hacacc).mp hb2)))
      rw [List.foldl_cons, hstep, hconv, ih (done ++ [k]) (by rw [happ]; simp),
        show (done ++ [k]) ++ ks = done ++ k :: ks by simp]

theorem deleteRec_eq_filter :
    ∀ (fuel : Nat) (s : Store) (tid : Nat), NodupIds s → Acyclic (parentOf s) →
      tid ∈ s.map Task.id →
      (∀ x n, iterParent (parentOf s) n x = some tid → n < fuel) →
      deleteRec fuel s tid = s.filter (fun x => ! reachesB s x.id tid) := by
  intro fuel
  induction fuel with
  | zero =>
      intro s tid _ _ _ hbound
      exact absurd (hbound tid 0 rfl) (by omega)
  | succ fuel ihf =>
      intro s tid hnd hac hmem hbound
      obtain ⟨T, hT⟩ := exists_findTask_of_mem_ids hmem
      simp only [deleteRec_succ, hT]
      have hinit : s.filter (fun x => List.all [] (fun k : Task => ! reachesB s x.id k.id)) = s := by
        simp
      have hfold := deleteRec_fold fuel ihf s tid hnd hac hbound (childrenOf s tid) []
        (by simp)
      rw [hinit] at hfold
      simp only [List.nil_append] at hfold
      rw [hfold, removeTask, List.filter_filter]
      apply List.filter_congr
      intro x hx
      apply bool_eq_of_iff
      simp only [Bool.and_eq_true, bne_iff_ne, ne_eq, List.all_eq_true, List.nil_append,
        Bool.not_eq_true']
      rw [← Bool.not_eq_true]
      constructor
      · rintro ⟨hxid, hall⟩ hb
        rcases reachesUp_decompose ((reachesB_iff hac).mp hb) with he | ⟨k, hkc, hreach⟩
        · exact hxid he
        · have := hall k hkc
          rw [← Bool.not_eq_true] at this
          exact this ((reachesB_iff hac).mpr hreach)
      · intro hb
        refine ⟨?_, ?_⟩
        · intro he
          exact hb ((reachesB_iff hac).mpr ⟨0, by simp [iterParent, he]⟩)
        · intro k hkc
          rw [← Bool.not_eq_true]
          intro hb2
          exact hb ((reachesB_iff hac).mpr
            (reachesUp_extend hnd hkc ((reachesB_iff hac).mp hb2)))

/-- C3: deleting an existing task removes exactly the tasks whose
`parentTask` chain reaches the deleted id (the task and all its
descendants, as one unit), and afterwards no surviving task's
`parentTask` references any removed id. -/
theorem claim_C3 (s : Store) (projectId taskId : Nat) (T : Task)
    (hwf : WF s) (hT : findTaskInProject s taskId projectId = some T) :
    ∃ s', deleteTask s projectId taskId = .ok s' ∧
      (∀ x : Task, x ∈ s' ↔ (x ∈ s ∧ ¬ ReachesUp s x.id taskId)) ∧
      (∀ x ∈ s', ∀ q, x.parentTask = some q → ¬ ReachesUp s q taskId) := by
  obtain ⟨hnd, hpc, hac⟩ := hwf
  obtain ⟨hTmem, hTid, _⟩ := findTaskInProject_spec hT
  have hmemid : taskId ∈ s.map Task.id := List.mem_map.mpr ⟨T, hTmem, hTid⟩
  have hchar := deleteRec_eq_filter (s.length + 1) s taskId hnd hac hmemid
    (fun x n hxn => by have := chain_le_length hac hxn; omega)
  have hmemchar : ∀ x : Task, x ∈ deleteRec (s.length + 1) s taskId ↔
      (x ∈ s ∧ ¬ ReachesUp s x.id taskId) := by
    intro x
    rw [hchar, List.mem_filter]
    simp only [Bool.not_eq_true']
    constructor
    · rintro ⟨hxs, hb⟩
      refine ⟨hxs, ?_⟩
      intro hr
      rw [(reachesB_iff hac).mpr hr] at hb
      cases hb
    · rintro ⟨hxs, hr⟩
      refine ⟨hxs, ?_⟩
      cases hbv : reachesB s x.id taskId with
      | false => rfl
      | true => exact absurd ((reachesB_iff hac).mp hbv) hr
  refine ⟨deleteRec (s.length + 1) s taskId, by simp only [deleteTask, hT], hmemchar, ?_⟩
  intro x hx q hq hreach
  obtain ⟨hxs, hnr⟩ := (hmemchar x).mp hx
  apply hnr
  have hstep : parentOf s x.id = some q := by rw [parentOf_eq hnd hxs, hq]
  obtain ⟨n, hn⟩ := hreach
  exact ⟨n + 1, iterParent_prepend hstep hn⟩

theorem claim_C3_witness :
    ∃ s', deleteTask demoChain 5 2 = .ok s' ∧
      (∀ x : Task, x ∈ s' ↔ (x ∈ demoChain ∧ ¬ ReachesUp demoChain x.id 2)) ∧
      (∀ x ∈ s', ∀ q, x.parentTask = some q → ¬ ReachesUp demoChain q 2) :=
  claim_C3 demoChain 5 2 { task0 with id := 2, project := 5, parentTask := some 1 }
    ⟨by decide, by decide, acyclic_of_ranked _ (fun id => id) (by decide)⟩ rfl

theorem claim_C7_amended_witness :
    dueDateQueryMatches (some 3) (some 9) { task0 with dueDate := some 5 } = true ∧
    clientDateFilter (some "2024-01-01".data) none none = true := by
  constructor
  · exact (claim_C7_amended.1 (some 3) (some 9) { task0 with dueDate := some 5 }).mpr
      (Or.inr ⟨5, rfl, by intro sd hsd; cases hsd; omega, by intro ed hed; cases hed; omega⟩)
  · exact claim_C7_amended.2 (some "2024-01-01".data) none

theorem claim_C8_amended_witness :
    tagsQueryMatches (some ["front"]) { task0 with tags := ["front"] } = true ∧
    clientTagsFilter (some "front".data) ["Frontend".data] = true := by
  constructor
  · exact (claim_C8_amended.1 ["front"] { task0 with tags := ["front"] }).mpr
      ⟨"front", by decide, by decide⟩
  · exact (claim_C8_amended.2 "front".data ["Frontend".data]).mpr
      ⟨"front".data, by decide, "Frontend".data, by decide, by decide⟩

end TaskApp
